import Mathlib

/-!
# Verification of the picire DDMIN core

Shallow embedding of the minimizing delta-debugger core of the picire
repository: `src/picire/abstract_dd.py` (class `AbstractDD`: the `ddmin`
outer loop, `_test_config`, `_lookup_cache`) and `src/picire/light_dd.py`
(class `LightDD`: `_reduce_config`, `_reduce_to_subset`,
`_reduce_to_complement`).

Units are an arbitrary type `α` with decidable equality; configurations are
`List α`.  The oracle is a pure function `List α → Outcome` (the spec's
oracle contract demands that the config id must not influence the verdict,
and that the oracle is deterministic).  The Python float used for
`complement_offset` is modelled by `ℚ`: the only operations performed on it
(`*`, true `/`, `+`, `%`, `int(...)`) are exact on the values reachable
here, and `ℚ` makes the true-division semantics of
`complement_offset * len(next_slices) / len(slices)` explicit.

Besides the cache, every engine step threads a ghost event trace recording
cache lookups, oracle calls, cache stores, probe results, reductions and
granularity escalations.  The trace changes no computed value; it is what
the cache/termination claims quantify over.

Representation note.  `AbstractDD.ddmin` (abstract_dd.py line 67) invokes
`self._reduce_config(run, config, slices, complement_offset)` — four
arguments, matching the abstract declaration of `_reduce_config` at
abstract_dd.py line 95 — while the override `LightDD._reduce_config`
(light_dd.py line 50) accepts only `(run, subsets, complement_offset)`,
where `subsets` is the list of materialized sub-configurations.  Composed
as written the Python raises `TypeError` at the first reduce step (see the
verdict on the corresponding claim).  The embedding below bridges the two
representations in the only semantically coherent way, which is also what
the spec describes: at the call site the subsets are materialized as
`slices.map (sliceList config)`, and the slice list returned by the
reduce step is read back from the sizes of the returned subsets (exactly
the rebuild that abstract_dd.py lines 72-77 performs from slice sizes).
-/

namespace Picire

/-- Test outcomes (`AbstractDD.PASS` / `AbstractDD.FAIL`). -/
inductive Outcome : Type where
  | PASS : Outcome
  | FAIL : Outcome
deriving DecidableEq, Repr

/-- An oracle maps a configuration to an outcome. -/
abbrev Oracle (α : Type) : Type := List α → Outcome

/-- Modelled from the spec: the outcome cache of `outcome_cache.py` (not
under `src/`).  Per spec section 4.1 it maps configurations — compared as
ordered sequences, duplicates and order significant — to outcomes; a plain
association list satisfies the contract. -/
abbrev Cache (α : Type) : Type := List (List α × Outcome)

/-- Modelled from the spec: `lookup(C)` returns the stored outcome for the
exact configuration `C`, or missing (`none`). -/
def cacheLookup {α : Type} [DecidableEq α] : Cache α → List α → Option Outcome
  | [], _ => none
  | (k, o) :: rest, c => if k = c then some o else cacheLookup rest c

/-- Modelled from the spec: `add(C, outcome)` records `outcome` for `C`. -/
def cacheAdd {α : Type} (cache : Cache α) (config : List α) (o : Outcome) : Cache α :=
  (config, o) :: cache

/-- A cache is sound for an oracle when every stored outcome is the
oracle's verdict (spec section 5: a successful lookup returns a value
previously added for an equal configuration, and the oracle is
deterministic). -/
def CacheSound {α : Type} [DecidableEq α] (oracle : Oracle α) (cache : Cache α) : Prop :=
  ∀ c o, cacheLookup cache c = some o → oracle c = o

/-- A half-open index range `[start, stop)`, the Python `slice(start, stop)`
objects handled by `AbstractDD.ddmin`. -/
structure Slice : Type where
  start : Nat
  stop : Nat
deriving DecidableEq, Repr

/-- `config[s]` for a slice `s`: the sub-sequence from `s.start`
(inclusive) to `s.stop` (exclusive). -/
def sliceList {α : Type} (config : List α) (s : Slice) : List α :=
  (config.drop s.start).take (s.stop - s.start)

/-- `chain len pos sl`: the slices `sl` tile `[pos, len)` contiguously with
nonempty slices — the partition invariant (I2) of the slice lists that
`ddmin` maintains. -/
def chain (len : Nat) : Nat → List Slice → Prop
  | pos, [] => pos = len
  | pos, s :: rest => s.start = pos ∧ pos < s.stop ∧ s.stop ≤ len ∧ chain len s.stop rest

/-- Modelled from the spec: the default balanced splitter
(`config_splitters.zeller`, not under `src/`): `split(n, k)` returns `k`
contiguous slices partitioning `[0, n)` with sizes differing by at most
one. -/
def splitBalanced (n k : Nat) : List Slice :=
  (List.range k).map (fun j => ⟨n * j / k, n * (j + 1) / k⟩)

/-- The slice-list rebuild of `AbstractDD.ddmin` (abstract_dd.py lines
72-77): contiguous slices from origin `start` whose sizes are `sizes`. -/
def sizesToSlices (start : Nat) : List Nat → List Slice
  | [] => []
  | sz :: rest => ⟨start, start + sz⟩ :: sizesToSlices (start + sz) rest

/-- Modelled from the spec: the default forward iterator
(`config_iterators.forward`, not under `src/`): yields `0, 1, …, n-1`.
Iterators may interleave a skip sentinel (Python `None`), which the engine
ignores; hence the `Option`. -/
def forward (n : Nat) : List (Option Nat) :=
  (List.range n).map some

/-- The token `'r%d' % run`. -/
def runToken (run : Nat) : String := "r" ++ toString run

/-- The token `'s%d' % i`. -/
def subsetToken (i : Nat) : String := "s" ++ toString i

/-- The token `'c%d' % i`. -/
def complToken (i : Nat) : String := "c" ++ toString i

/-- Ghost trace events.  `lookup`, `call` and `store` record the cache
consultations, oracle invocations and cache writes; `probed` records the
outcome a reduce-phase probe obtained (from cache or oracle); `reduced`
and `escalate` record the outer-loop transitions with the data the
numerical claims are about. -/
inductive Event (α : Type) : Type where
  | lookup (config : List α) (id : List String) : Event α
  | call (config : List α) (id : List String) (outcome : Outcome) : Event α
  | store (config : List α) (outcome : Outcome) : Event α
  | probed (config : List α) (id : List String) (outcome : Outcome) : Event α
  | reduced (oldLen newLen : Nat) : Event α
  | escalate (old : ℚ) (prevCnt nextCnt cfgLen : Nat) (new : ℚ) : Event α
deriving DecidableEq

/-- Engine state: the outcome cache plus the ghost trace. -/
structure DDState (α : Type) : Type where
  cache : Cache α
  trace : List (Event α)
deriving DecidableEq

/-- The configurations of all non-assert oracle calls in a trace, in call
order. -/
def nonAssertCallConfigs {α : Type} (tr : List (Event α)) : List (List α) :=
  tr.filterMap (fun e =>
    match e with
    | Event.call c id _ => if "assert" ∈ id then none else some c
    | _ => none)

/-- `AbstractDD._test_config`: prepend the id prefix, invoke the oracle,
and write the outcome through to the cache unless the full config id
contains the token `"assert"` (abstract_dd.py lines 126-144). -/
def testConfig {α : Type} [DecidableEq α] (oracle : Oracle α) (pre : List String)
    (st : DDState α) (config : List α) (cid : List String) : Outcome × DDState α :=
  let configId := pre ++ cid
  let outcome := oracle config
  if "assert" ∈ configId then
    (outcome, ⟨st.cache, st.trace ++ [Event.call config configId outcome]⟩)
  else
    (outcome, ⟨cacheAdd st.cache config outcome,
      st.trace ++ [Event.call config configId outcome, Event.store config outcome]⟩)

/-- `AbstractDD._lookup_cache`: a cache lookup keyed by the configuration
content; the config id is only reported (here: recorded in the trace, with
the prefix prepended as in the debug message of abstract_dd.py line 122). -/
def lookupCache {α : Type} [DecidableEq α] (pre : List String) (st : DDState α)
    (config : List α) (cid : List String) : Option Outcome × DDState α :=
  (cacheLookup st.cache config, ⟨st.cache, st.trace ++ [Event.lookup config (pre ++ cid)]⟩)

/-- The probe idiom of light_dd.py lines 87 and 114:
`self._lookup_cache(config, config_id) or self._test_config(config, config_id)`
(`None` is the only falsy value the lookup can produce).  A ghost `probed`
event records the outcome the engine obtained. -/
def probe {α : Type} [DecidableEq α] (oracle : Oracle α) (pre : List String)
    (st : DDState α) (config : List α) (cid : List String) : Outcome × DDState α :=
  let looked := lookupCache pre st config cid
  match looked.1 with
  | some o => (o, ⟨looked.2.cache, looked.2.trace ++ [Event.probed config (pre ++ cid) o]⟩)
  | none =>
    let t := testConfig oracle pre looked.2 config cid
    (t.1, ⟨t.2.cache, t.2.trace ++ [Event.probed config (pre ++ cid) t.1]⟩)

/-- The Python expression `int((j + complement_offset) % n)` of light_dd.py
line 109.  For a non-integral left operand Python's `%` computes
`x - n * floor(x / n)`, which for `n > 0` lies in `[0, n)`, so `int(...)`
(truncation toward zero) is the floor. -/
def complementIndex (j : Nat) (off : ℚ) (n : Nat) : Nat :=
  (Int.floor (((j : ℚ) + off) - (n : ℚ) * (Int.floor (((j : ℚ) + off) / (n : ℚ)) : ℤ))).toNat

/-- The complement construction of light_dd.py line 112:
`[c for si, s in enumerate(subsets) for c in s if si != i]`. -/
def complementOf {α : Type} (subsets : List (List α)) (i : Nat) : List α :=
  (((subsets.enum).filter (fun p => p.1 ≠ i)).map Prod.snd).flatten

/-- Loop body of `LightDD._reduce_to_subset` (light_dd.py lines 78-92),
recursing over the indices the subset iterator yields (skipping the `None`
sentinel).  `subsets.getD i []` models the Python indexing `subsets[i]`
(in-range for every index a contract-abiding iterator yields). -/
def reduceToSubsetGo {α : Type} [DecidableEq α] (oracle : Oracle α) (pre : List String)
    (run : Nat) (subsets : List (List α)) (off : ℚ) :
    List (Option Nat) → DDState α → (Option (List (List α)) × ℚ) × DDState α
  | [], st => ((none, off), st)
  | none :: rest, st => reduceToSubsetGo oracle pre run subsets off rest st
  | some i :: rest, st =>
    let cid := [runToken run, subsetToken i]
    let subset := subsets.getD i []
    let t := probe oracle pre st subset cid
    if t.1 = Outcome.FAIL then ((some [subset], 0), t.2)
    else reduceToSubsetGo oracle pre run subsets off rest t.2

/-- `LightDD._reduce_to_subset`: probe each subset in iterator order; on
the first FAIL return `([subsets[i]], 0)`, otherwise
`(None, complement_offset)`. -/
def reduceToSubset {α : Type} [DecidableEq α] (oracle : Oracle α) (pre : List String)
    (sIt : Nat → List (Option Nat)) (run : Nat) (subsets : List (List α)) (off : ℚ)
    (st : DDState α) : (Option (List (List α)) × ℚ) × DDState α :=
  reduceToSubsetGo oracle pre run subsets off (sIt subsets.length) st

/-- Loop body of `LightDD._reduce_to_complement` (light_dd.py lines
105-120): each yielded raw index `j` is remapped to
`i = int((j + complement_offset) % n)`; on a failing complement return
`(subsets[:i] + subsets[i+1:], i)`. -/
def reduceToComplementGo {α : Type} [DecidableEq α] (oracle : Oracle α) (pre : List String)
    (run : Nat) (subsets : List (List α)) (off : ℚ) :
    List (Option Nat) → DDState α → (Option (List (List α)) × ℚ) × DDState α
  | [], st => ((none, off), st)
  | none :: rest, st => reduceToComplementGo oracle pre run subsets off rest st
  | some j :: rest, st =>
    let i := complementIndex j off subsets.length
    let cid := [runToken run, complToken i]
    let compl := complementOf subsets i
    let t := probe oracle pre st compl cid
    if t.1 = Outcome.FAIL then ((some (subsets.take i ++ subsets.drop (i + 1)), (i : ℚ)), t.2)
    else reduceToComplementGo oracle pre run subsets off rest t.2

/-- `LightDD._reduce_to_complement`. -/
def reduceToComplement {α : Type} [DecidableEq α] (oracle : Oracle α) (pre : List String)
    (cIt : Nat → List (Option Nat)) (run : Nat) (subsets : List (List α)) (off : ℚ)
    (st : DDState α) : (Option (List (List α)) × ℚ) × DDState α :=
  reduceToComplementGo oracle pre run subsets off (cIt subsets.length) st

/-- `LightDD._reduce_config` (light_dd.py lines 50-65): run the first
reduce sub-phase (chosen by `subsetFirst` in the constructor, light_dd.py
lines 45-48); if it finds nothing, run the second with the offset the
first returned. -/
def reduceConfig {α : Type} [DecidableEq α] (oracle : Oracle α) (pre : List String)
    (sIt cIt : Nat → List (Option Nat)) (subsetFirst : Bool) (run : Nat)
    (subsets : List (List α)) (off : ℚ) (st : DDState α) :
    (Option (List (List α)) × ℚ) × DDState α :=
  let first := if subsetFirst then reduceToSubset oracle pre sIt run subsets off st
    else reduceToComplement oracle pre cIt run subsets off st
  match first with
  | ((some ns, off1), st1) => ((some ns, off1), st1)
  | ((none, off1), st1) =>
    if subsetFirst then reduceToComplement oracle pre cIt run subsets off1 st1
    else reduceToSubset oracle pre sIt run subsets off1 st1

/-- Result of a `ddmin` run: the returned configuration, the Python
`AssertionError` of abstract_dd.py line 54, or fuel exhaustion (the
embedding of `itertools.count()` runs on explicit fuel; the termination
theorem shows sufficient fuel exists). -/
inductive DDRes (α : Type) : Type where
  | done (config : List α) : DDRes α
  | assertFailed : DDRes α
  | outOfFuel : DDRes α
deriving DecidableEq

/-- One outer `ddmin` loop (abstract_dd.py lines 53-93), on fuel.  Each
iteration: re-assert the current config FAILs; return when fewer than two
units remain; re-split when fewer than two slices are at hand; run the
reduce step (bridged as described in the file header); on success rebuild
config and slices from the returned subsets; otherwise escalate
granularity (with true-division offset rescaling, abstract_dd.py line 85)
or return at the finest split. -/
def ddminGo {α : Type} [DecidableEq α] (oracle : Oracle α) (pre : List String)
    (sIt cIt : Nat → List (Option Nat)) (subsetFirst : Bool) (n : Nat) :
    Nat → Nat → List α → List Slice → ℚ → DDState α → DDRes α × DDState α
  | 0, _, _, _, _, st => (DDRes.outOfFuel, st)
  | fuel + 1, run, config, slices0, off, st =>
    let t := testConfig oracle pre st config [runToken run, "assert"]
    if t.1 = Outcome.FAIL then
      if config.length < 2 then (DDRes.done config, t.2)
      else
        let slices := if slices0.length < 2 then
          splitBalanced config.length (min config.length n) else slices0
        let subsets := slices.map (sliceList config)
        match reduceConfig oracle pre sIt cIt subsetFirst run subsets off t.2 with
        | ((some nss, off1), st1) =>
          let config1 := nss.flatten
          let slices1 := sizesToSlices 0 (nss.map List.length)
          ddminGo oracle pre sIt cIt subsetFirst n fuel (run + 1) config1 slices1 off1
            ⟨st1.cache, st1.trace ++ [Event.reduced config.length config1.length]⟩
        | ((none, off1), st1) =>
          if slices.length < config.length then
            let next := splitBalanced config.length (min config.length (slices.length * n))
            let off2 := off1 * (next.length : ℚ) / (slices.length : ℚ)
            ddminGo oracle pre sIt cIt subsetFirst n fuel (run + 1) config next off2
              ⟨st1.cache, st1.trace ++
                [Event.escalate off1 slices.length next.length config.length off2]⟩
          else (DDRes.done config, st1)
    else (DDRes.assertFailed, t.2)

/-- Fuel that the termination theorem shows sufficient for `ddmin` on
`config`. -/
def ddFuel {α : Type} (config : List α) : Nat :=
  config.length * (config.length + 2) + config.length + 1

/-- `AbstractDD.ddmin`: reduce `config` with split ratio `n`, starting
from no slices and complement offset `0` (abstract_dd.py lines 50-51),
with the caller-supplied cache and an empty trace. -/
def ddmin {α : Type} [DecidableEq α] (oracle : Oracle α) (pre : List String)
    (sIt cIt : Nat → List (Option Nat)) (subsetFirst : Bool) (cache0 : Cache α)
    (config : List α) (n : Nat) : DDRes α × DDState α :=
  ddminGo oracle pre sIt cIt subsetFirst n (ddFuel config) 0 config [] 0 ⟨cache0, []⟩

/-! ## Basic lemmas: cache, tokens, slices, split, complement index -/

section Basic

variable {α : Type} [DecidableEq α]

theorem cacheLookup_add_self (cache : Cache α) (c : List α) (o : Outcome) :
    cacheLookup (cacheAdd cache c o) c = some o := by
  simp [cacheAdd, cacheLookup]

theorem cacheLookup_add_ne (cache : Cache α) {c c' : List α} (o : Outcome) (h : c ≠ c') :
    cacheLookup (cacheAdd cache c o) c' = cacheLookup cache c' := by
  simp [cacheAdd, cacheLookup, h]

theorem cacheSound_nil (oracle : Oracle α) : CacheSound oracle ([] : Cache α) := by
  intro c o h
  simp [cacheLookup] at h

theorem cacheSound_add {oracle : Oracle α} {cache : Cache α} (hs : CacheSound oracle cache)
    (c : List α) : CacheSound oracle (cacheAdd cache c (oracle c)) := by
  intro c' o' h'
  simp only [cacheAdd, cacheLookup] at h'
  split at h'
  · next hc => injection h' with h2; rw [← hc, h2]
  · exact hs c' o' h'

theorem runToken_ne_assert (run : Nat) : runToken run ≠ "assert" := by
  intro h
  have h2 := congrArg String.data h
  simp [runToken, String.data_append] at h2

theorem subsetToken_ne_assert (i : Nat) : subsetToken i ≠ "assert" := by
  intro h
  have h2 := congrArg String.data h
  simp [subsetToken, String.data_append] at h2

theorem complToken_ne_assert (i : Nat) : complToken i ≠ "assert" := by
  intro h
  have h2 := congrArg String.data h
  simp [complToken, String.data_append] at h2

theorem mem_forward {i n : Nat} : some i ∈ forward n ↔ i < n := by
  simp [forward]

/-! ### Slice chains -/

theorem chain_nil_iff {len pos : Nat} : chain len pos [] ↔ pos = len := Iff.rfl

theorem chain_cons_iff {len pos : Nat} {s : Slice} {rest : List Slice} :
    chain len pos (s :: rest) ↔
      s.start = pos ∧ pos < s.stop ∧ s.stop ≤ len ∧ chain len s.stop rest := Iff.rfl

theorem chain_le {len : Nat} : ∀ {sl : List Slice} {pos : Nat}, chain len pos sl → pos ≤ len
  | [], _, h => le_of_eq h
  | _ :: _, _, h => le_trans (le_of_lt h.2.1) h.2.2.1

theorem chain_count_le {len : Nat} :
    ∀ {sl : List Slice} {pos : Nat}, chain len pos sl → pos + sl.length ≤ len := by
  intro sl
  induction sl with
  | nil => intro pos h; simpa [chain] using le_of_eq h
  | cons s rest ih =>
    intro pos h
    obtain ⟨-, h2, -, h4⟩ := h
    have := ih h4
    simp only [List.length_cons]
    omega

theorem chain_sum {len : Nat} :
    ∀ {sl : List Slice} {pos : Nat}, chain len pos sl →
      pos + (sl.map (fun s => s.stop - s.start)).sum = len := by
  intro sl
  induction sl with
  | nil => intro pos h; simpa [chain] using h
  | cons s rest ih =>
    intro pos h
    obtain ⟨h1, h2, -, h4⟩ := h
    have := ih h4
    simp only [List.map_cons, List.sum_cons, h1]
    omega

theorem chain_mem_bounds {len : Nat} :
    ∀ {sl : List Slice} {pos : Nat}, chain len pos sl →
      ∀ s ∈ sl, s.start < s.stop ∧ s.stop ≤ len := by
  intro sl
  induction sl with
  | nil => intro pos _ s hs; cases hs
  | cons a rest ih =>
    intro pos h s hs
    obtain ⟨h1, h2, h3, h4⟩ := h
    rcases List.mem_cons.mp hs with rfl | hs'
    · exact ⟨h1 ▸ h2, h3⟩
    · exact ih h4 s hs'

theorem sliceList_length {config : List α} {s : Slice}
    (h1 : s.start ≤ s.stop) (h2 : s.stop ≤ config.length) :
    (sliceList config s).length = s.stop - s.start := by
  simp only [sliceList, List.length_take, List.length_drop]
  omega

theorem sliceList_sublist (config : List α) (s : Slice) :
    List.Sublist (sliceList config s) config :=
  ((config.drop s.start).take_sublist _).trans (config.drop_sublist _)

theorem chain_flatten {config : List α} :
    ∀ {sl : List Slice} {pos : Nat}, chain config.length pos sl →
      ((sl.map (sliceList config)).flatten) = config.drop pos := by
  intro sl
  induction sl with
  | nil =>
    intro pos h
    simp only [chain] at h
    simp [h, List.drop_eq_nil_of_le (le_refl config.length)]
  | cons s rest ih =>
    intro pos h
    obtain ⟨h1, h2, h3, h4⟩ := h
    have hrest := ih h4
    simp only [List.map_cons, List.flatten_cons, hrest, sliceList, h1]
    have hdd : config.drop s.stop = ((config.drop pos).drop (s.stop - pos)) := by
      rw [List.drop_drop]
      congr 1
      omega
    rw [hdd, ← h1, List.take_append_drop]

/-! ### The balanced splitter -/

theorem splitBalanced_length (n k : Nat) : (splitBalanced n k).length = k := by
  simp [splitBalanced]

theorem splitBalanced_chain_aux {n k : Nat} (h1 : 1 ≤ k) (h2 : k ≤ n) :
    ∀ (cnt j : Nat), j + cnt = k →
      chain n (n * j / k)
        ((List.range' j cnt).map (fun i => Slice.mk (n * i / k) (n * (i + 1) / k))) := by
  intro cnt
  induction cnt with
  | zero =>
    intro j hj
    have : j = k := by omega
    subst this
    simp only [List.range', List.map_nil, chain]
    exact Nat.mul_div_left n h1
  | succ cnt ih =>
    intro j hj
    have hjk : j < k := by omega
    have hstep : n * j / k + 1 ≤ n * (j + 1) / k := by
      have ha : n * j + k ≤ n * (j + 1) := by
        have : k ≤ n := h2
        calc n * j + k ≤ n * j + n := by omega
        _ = n * (j + 1) := by ring
      calc n * j / k + 1 = (n * j + k) / k := (Nat.add_div_right _ h1).symm
      _ ≤ n * (j + 1) / k := Nat.div_le_div_right ha
    have hstop : n * (j + 1) / k ≤ n := by
      calc n * (j + 1) / k ≤ n * k / k := Nat.div_le_div_right (by
        have : j + 1 ≤ k := hjk
        exact Nat.mul_le_mul_left n this)
      _ = n := Nat.mul_div_left n h1
    have hrange : List.range' j (cnt + 1) = j :: List.range' (j + 1) cnt := rfl
    rw [hrange, List.map_cons, chain_cons_iff]
    exact ⟨rfl, hstep, hstop, ih (j + 1) (by omega)⟩

theorem splitBalanced_chain {n k : Nat} (h1 : 1 ≤ k) (h2 : k ≤ n) :
    chain n 0 (splitBalanced n k) := by
  have := splitBalanced_chain_aux h1 h2 k 0 (by omega)
  simpa [splitBalanced, List.range_eq_range'] using this

/-! ### Slice rebuild from sizes -/

theorem sizesToSlices_chain :
    ∀ {sizes : List Nat} {start len : Nat}, (∀ sz ∈ sizes, 1 ≤ sz) →
      start + sizes.sum = len → chain len start (sizesToSlices start sizes) := by
  intro sizes
  induction sizes with
  | nil => intro start len _ hsum; simpa [sizesToSlices, chain] using hsum
  | cons sz rest ih =>
    intro start len hpos hsum
    have h1 : 1 ≤ sz := hpos sz (List.mem_cons_self _ _)
    rw [sizesToSlices, chain_cons_iff]
    simp only [List.sum_cons] at hsum
    refine ⟨rfl, ?_, ?_, ?_⟩
    · show start < start + sz
      omega
    · show start + sz ≤ len
      omega
    · exact ih (fun s hs => hpos s (List.mem_cons_of_mem _ hs))
        (show start + sz + rest.sum = len by omega)

/-! ### The complement construction -/

theorem filter_enumFrom_of_lt {L : List (List α)} :
    ∀ {k i : Nat}, i < k →
      (List.enumFrom k L).filter (fun p => decide (p.1 ≠ i)) = List.enumFrom k L := by
  induction L with
  | nil => intro k i _; rfl
  | cons s rest ih =>
    intro k i hik
    simp only [List.enumFrom, List.filter]
    have : (decide (k ≠ i)) = true := by simp; omega
    rw [this, ih (by omega)]

theorem enumFrom_map_snd (L : List (List α)) : ∀ k, (List.enumFrom k L).map Prod.snd = L := by
  induction L with
  | nil => intro k; rfl
  | cons s rest ih => intro k; simp only [List.enumFrom, List.map_cons, ih]

theorem enum_compl_aux (L : List (List α)) :
    ∀ (k i : Nat), ((List.enumFrom k L).filter (fun p => decide (p.1 ≠ (k + i)))).map Prod.snd
      = L.take i ++ L.drop (i + 1) := by
  induction L with
  | nil => intro k i; simp
  | cons s rest ih =>
    intro k i
    cases i with
    | zero =>
      simp only [List.enumFrom, List.filter]
      have : (decide (k ≠ k + 0)) = false := by simp
      rw [this, filter_enumFrom_of_lt (by omega), enumFrom_map_snd]
      simp
    | succ i' =>
      simp only [List.enumFrom, List.filter]
      have : (decide (k ≠ k + (i' + 1))) = true := by simp
      rw [this]
      simp only [List.map_cons, List.take_succ_cons, List.drop_succ_cons, List.cons_append]
      have := ih (k + 1) i'
      rw [show k + 1 + i' = k + (i' + 1) by omega] at this
      rw [this]

theorem complementOf_def' (subsets : List (List α)) (i : Nat) :
    complementOf subsets i =
      (((List.enumFrom 0 subsets).filter (fun p => decide (p.1 ≠ i))).map Prod.snd).flatten :=
  rfl

theorem complementOf_eq (subsets : List (List α)) (i : Nat) :
    complementOf subsets i = (subsets.take i ++ subsets.drop (i + 1)).flatten := by
  have h := enum_compl_aux subsets 0 i
  simp only [Nat.zero_add] at h
  rw [complementOf_def', h]

/-! ### The complement index  `int((j + complement_offset) % n)` -/

theorem complementIndex_eq (j : Nat) {off : ℚ} {n : Nat} (hoff : 0 ≤ off) (hn : 0 < n) :
    complementIndex j off n = (j + (Int.toNat ⌊off⌋)) % n := by
  have hfl : (0:ℤ) ≤ ⌊off⌋ := Int.floor_nonneg.mpr hoff
  set F : Nat := Int.toNat ⌊off⌋ with hF
  have hFeq : ((F : ℚ)) = ((⌊off⌋ : ℤ) : ℚ) := by
    rw [hF]
    exact_mod_cast congrArg (fun z : ℤ => (z : ℚ)) (Int.toNat_of_nonneg hfl)
  have hF1 : (F : ℚ) ≤ off := by
    rw [hFeq]
    exact Int.floor_le off
  have hF2 : off < (F : ℚ) + 1 := by
    rw [hFeq]
    exact Int.lt_floor_add_one off
  set q : Nat := (j + F) / n with hq
  set r : Nat := (j + F) % n with hr
  have hqr : n * q + r = j + F := Nat.div_add_mod (j + F) n
  have hrn : r < n := Nat.mod_lt _ hn
  have hnQ : (0:ℚ) < (n:ℚ) := by exact_mod_cast hn
  set x : ℚ := (j : ℚ) + off with hx
  have hx1 : ((j + F : ℕ) : ℚ) ≤ x := by push_cast; linarith
  have hx2 : x < ((j + F : ℕ) : ℚ) + 1 := by push_cast; linarith
  have hfloor_div : ⌊x / (n : ℚ)⌋ = (q : ℤ) := by
    rw [Int.floor_eq_iff]
    constructor
    · rw [le_div_iff₀ hnQ]
      calc ((q:ℤ):ℚ) * n = ((n * q : ℕ) : ℚ) := by push_cast; ring
      _ ≤ ((j + F : ℕ) : ℚ) := by exact_mod_cast (by omega : n * q ≤ j + F)
      _ ≤ x := hx1
    · rw [div_lt_iff₀ hnQ]
      calc x < ((j + F : ℕ) : ℚ) + 1 := hx2
      _ = ((n * q + r + 1 : ℕ) : ℚ) := by push_cast; congr 1; exact_mod_cast hqr.symm
      _ ≤ ((n * q + n : ℕ) : ℚ) := by exact_mod_cast (by omega : n * q + r + 1 ≤ n * q + n)
      _ = (((q:ℤ) + 1) : ℚ) * n := by push_cast; ring
  have hfloor : ⌊x - (n : ℚ) * ((q : ℤ) : ℚ)⌋ = (r : ℤ) := by
    rw [Int.floor_eq_iff]
    constructor
    · calc ((r:ℤ):ℚ) = ((j + F : ℕ):ℚ) - ((n * q : ℕ):ℚ) := by
            push_cast
            have : (n:ℚ) * q + r = (j:ℚ) + F := by exact_mod_cast hqr
            linarith
      _ ≤ x - (n:ℚ) * ((q:ℤ):ℚ) := by
            push_cast
            have := hx1
            push_cast at this
            linarith
    · have : x - (n:ℚ) * ((q:ℤ):ℚ) < ((j + F : ℕ):ℚ) + 1 - ((n * q : ℕ):ℚ) := by
        push_cast
        push_cast at hx2
        linarith
      calc x - (n:ℚ) * ((q:ℤ):ℚ) < ((j + F : ℕ):ℚ) + 1 - ((n * q : ℕ):ℚ) := this
      _ = ((r:ℤ):ℚ) + 1 := by
            push_cast
            have : (n:ℚ) * q + r = (j:ℚ) + F := by exact_mod_cast hqr
            linarith
  show (Int.floor (x - (n : ℚ) * (Int.floor (x / (n : ℚ)) : ℤ))).toNat = r
  rw [hfloor_div, hfloor]
  exact Int.toNat_natCast r

theorem complementIndex_lt (j : Nat) {off : ℚ} {n : Nat} (hoff : 0 ≤ off) (hn : 0 < n) :
    complementIndex j off n < n := by
  rw [complementIndex_eq j hoff hn]
  exact Nat.mod_lt _ hn

theorem complementIndex_surj {off : ℚ} {n : Nat} (hoff : 0 ≤ off) (hn : 0 < n)
    {i : Nat} (hi : i < n) : ∃ j, j < n ∧ complementIndex j off n = i := by
  set F : Nat := Int.toNat ⌊off⌋ with hF
  set r : Nat := F % n with hr
  refine ⟨(i + (n - r)) % n, Nat.mod_lt _ hn, ?_⟩
  rw [complementIndex_eq _ hoff hn, ← hF, Nat.mod_add_mod]
  have hqr : n * (F / n) + r = F := Nat.div_add_mod F n
  have hrn : r < n := Nat.mod_lt _ hn
  have h1 : i + (n - r) + F = i + n + n * (F / n) := by omega
  rw [h1]
  have h2 : i + n + n * (F / n) = (i + n) + n * (F / n) := rfl
  rw [h2, Nat.add_mul_mod_self_left, Nat.add_mod_right, Nat.mod_eq_of_lt hi]

end Basic

/-! ## Engine invariants along a run -/

section Invariants

variable {α : Type} [DecidableEq α]

/-- The run invariant tying the cache and the ghost trace to the oracle:
the cache stays sound; call events return the oracle's verdict; every
non-assert call is (still) in the cache; no configuration is oracle-called
twice outside asserts; probe results equal the oracle's verdict; recorded
escalations satisfy the true-division rescaling and strictly increase the
slice count below the config length; recorded reductions strictly shrink;
cache entries come from the initial cache or from non-assert calls; and —
when the caller-supplied prefix is clean — lookups never carry an assert
id. -/
structure Inv (oracle : Oracle α) (cache0 : Cache α) (pre : List String)
    (st : DDState α) : Prop where
  sound : CacheSound oracle st.cache
  callSound : ∀ c id o, Event.call c id o ∈ st.trace → o = oracle c
  callCached : ∀ c id o, Event.call c id o ∈ st.trace → "assert" ∉ id →
    cacheLookup st.cache c = some o
  nodup : (nonAssertCallConfigs st.trace).Nodup
  probedSound : ∀ c id o, Event.probed c id o ∈ st.trace → o = oracle c
  escOK : ∀ old p q len new, Event.escalate old p q len new ∈ st.trace →
    new = old * (q : ℚ) / (p : ℚ) ∧ p < q ∧ q ≤ len
  redOK : ∀ a b, Event.reduced a b ∈ st.trace → b < a
  fromCalls : ∀ c, cacheLookup st.cache c ≠ none →
    cacheLookup cache0 c ≠ none ∨ c ∈ nonAssertCallConfigs st.trace
  lookupNoAssert : "assert" ∉ pre → ∀ c id, Event.lookup c id ∈ st.trace → "assert" ∉ id

theorem nonAssertCallConfigs_append (t1 t2 : List (Event α)) :
    nonAssertCallConfigs (t1 ++ t2) = nonAssertCallConfigs t1 ++ nonAssertCallConfigs t2 :=
  List.filterMap_append t1 t2 _

theorem mem_nonAssertCallConfigs {c : List α} {tr : List (Event α)} :
    c ∈ nonAssertCallConfigs tr ↔ ∃ id o, Event.call c id o ∈ tr ∧ "assert" ∉ id := by
  simp only [nonAssertCallConfigs, List.mem_filterMap]
  constructor
  · rintro ⟨e, he, hfe⟩
    cases e with
    | call c' id o =>
      by_cases hid : "assert" ∈ id
      · simp [hid] at hfe
      · simp [hid] at hfe
        exact ⟨id, o, hfe ▸ he, hid⟩
    | lookup c' id => simp at hfe
    | store c' o => simp at hfe
    | probed c' id o => simp at hfe
    | reduced a b => simp at hfe
    | escalate q1 p q l q2 => simp at hfe
  · rintro ⟨id, o, he, hid⟩
    exact ⟨Event.call c id o, he, by simp [hid]⟩

theorem inv_init (oracle : Oracle α) (cache0 : Cache α) (pre : List String)
    (hs : CacheSound oracle cache0) : Inv oracle cache0 pre ⟨cache0, []⟩ := by
  refine ⟨hs, ?_, ?_, ?_, ?_, ?_, ?_, ?_, ?_⟩
  · intro c id o h; cases h
  · intro c id o h; cases h
  · simp [nonAssertCallConfigs]
  · intro c id o h; cases h
  · intro old p q len new h; cases h
  · intro a b h; cases h
  · intro c h; exact Or.inl h
  · intro _ c id h; cases h

theorem testConfig_fst (oracle : Oracle α) (pre : List String) (st : DDState α)
    (config : List α) (cid : List String) :
    (testConfig oracle pre st config cid).1 = oracle config := by
  simp only [testConfig]
  split <;> rfl

theorem testConfig_assert_eq {pre cid : List String} (h : "assert" ∈ pre ++ cid)
    (oracle : Oracle α) (st : DDState α) (config : List α) :
    testConfig oracle pre st config cid =
      (oracle config,
       ⟨st.cache, st.trace ++ [Event.call config (pre ++ cid) (oracle config)]⟩) := by
  simp [testConfig, h]

theorem testConfig_clean_eq {pre cid : List String} (h : "assert" ∉ pre ++ cid)
    (oracle : Oracle α) (st : DDState α) (config : List α) :
    testConfig oracle pre st config cid =
      (oracle config,
       ⟨cacheAdd st.cache config (oracle config),
        st.trace ++ [Event.call config (pre ++ cid) (oracle config),
          Event.store config (oracle config)]⟩) := by
  simp [testConfig, h]

/-- Invariant preservation across an assert-id oracle test (the
pre-iteration assertion of abstract_dd.py line 54): the cache is untouched
and the trace only gains an assert call event. -/
theorem inv_testConfig_assert {oracle : Oracle α} {cache0 : Cache α} {pre : List String}
    {st : DDState α} (hInv : Inv oracle cache0 pre st) (config : List α) (cid : List String)
    (hcid : "assert" ∈ cid) :
    Inv oracle cache0 pre (testConfig oracle pre st config cid).2 := by
  have hmem : "assert" ∈ pre ++ cid := List.mem_append_right pre hcid
  rw [testConfig_assert_eq hmem]
  refine ⟨hInv.sound, ?_, ?_, ?_, ?_, ?_, ?_, ?_, ?_⟩
  · intro c id o h
    rcases List.mem_append.mp h with h | h
    · exact hInv.callSound c id o h
    · simp only [List.mem_singleton, Event.call.injEq] at h
      obtain ⟨rfl, -, rfl⟩ := h
      rfl
  · intro c id o h hid
    rcases List.mem_append.mp h with h | h
    · exact hInv.callCached c id o h hid
    · simp only [List.mem_singleton, Event.call.injEq] at h
      obtain ⟨-, rfl, -⟩ := h
      exact absurd hmem hid
  · rw [nonAssertCallConfigs_append]
    have : nonAssertCallConfigs [Event.call config (pre ++ cid) (oracle config)] = [] := by
      simp [nonAssertCallConfigs, hmem]
    rw [this, List.append_nil]
    exact hInv.nodup
  · intro c id o h
    rcases List.mem_append.mp h with h | h
    · exact hInv.probedSound c id o h
    · simp at h
  · intro old p q len new h
    rcases List.mem_append.mp h with h | h
    · exact hInv.escOK old p q len new h
    · simp at h
  · intro a b h
    rcases List.mem_append.mp h with h | h
    · exact hInv.redOK a b h
    · simp at h
  · intro c h
    rcases hInv.fromCalls c h with h' | h'
    · exact Or.inl h'
    · refine Or.inr ?_
      rw [nonAssertCallConfigs_append]
      exact List.mem_append_left _ h'
  · intro hpre c id h
    rcases List.mem_append.mp h with h | h
    · exact hInv.lookupNoAssert hpre c id h
    · simp at h

theorem probe_hit_eq {st : DDState α} {config : List α} {o : Outcome}
    (hlk : cacheLookup st.cache config = some o) (oracle : Oracle α) (pre cid : List String) :
    probe oracle pre st config cid =
      (o, ⟨st.cache, st.trace ++ [Event.lookup config (pre ++ cid),
        Event.probed config (pre ++ cid) o]⟩) := by
  simp [probe, lookupCache, hlk]

theorem probe_miss_assert_eq {st : DDState α} {config : List α}
    (hlk : cacheLookup st.cache config = none) {pre cid : List String}
    (hmem : "assert" ∈ pre ++ cid) (oracle : Oracle α) :
    probe oracle pre st config cid =
      (oracle config, ⟨st.cache, st.trace ++ [Event.lookup config (pre ++ cid),
        Event.call config (pre ++ cid) (oracle config),
        Event.probed config (pre ++ cid) (oracle config)]⟩) := by
  simp [probe, lookupCache, hlk, testConfig, hmem]

theorem probe_miss_clean_eq {st : DDState α} {config : List α}
    (hlk : cacheLookup st.cache config = none) {pre cid : List String}
    (hmem : "assert" ∉ pre ++ cid) (oracle : Oracle α) :
    probe oracle pre st config cid =
      (oracle config, ⟨cacheAdd st.cache config (oracle config),
        st.trace ++ [Event.lookup config (pre ++ cid),
          Event.call config (pre ++ cid) (oracle config),
          Event.store config (oracle config),
          Event.probed config (pre ++ cid) (oracle config)]⟩) := by
  simp [probe, lookupCache, hlk, testConfig, hmem]

/-- Under a sound cache, the outcome a probe obtains — whether from the
cache or from the oracle — is the oracle's verdict. -/
theorem probe_fst {oracle : Oracle α} {st : DDState α} (hs : CacheSound oracle st.cache)
    (pre cid : List String) (config : List α) :
    (probe oracle pre st config cid).1 = oracle config := by
  cases hlk : cacheLookup st.cache config with
  | some o => rw [probe_hit_eq hlk]; exact (hs config o hlk).symm
  | none =>
    by_cases hmem : "assert" ∈ pre ++ cid
    · rw [probe_miss_assert_eq hlk hmem]
    · rw [probe_miss_clean_eq hlk hmem]

/-- Invariant preservation across one probe whose engine-generated id
tokens are not `"assert"`. -/
theorem inv_probe {oracle : Oracle α} {cache0 : Cache α} {pre : List String}
    {st : DDState α} (hInv : Inv oracle cache0 pre st) (config : List α) (cid : List String)
    (hcid : "assert" ∉ cid) :
    Inv oracle cache0 pre (probe oracle pre st config cid).2 := by
  cases hlk : cacheLookup st.cache config with
  | some o =>
    rw [probe_hit_eq hlk]
    refine ⟨hInv.sound, ?_, ?_, ?_, ?_, ?_, ?_, ?_, ?_⟩
    · intro c id o' h
      rcases List.mem_append.mp h with h | h
      · exact hInv.callSound c id o' h
      · simp at h
    · intro c id o' h hid
      rcases List.mem_append.mp h with h | h
      · exact hInv.callCached c id o' h hid
      · simp at h
    · rw [nonAssertCallConfigs_append]
      have : nonAssertCallConfigs [Event.lookup config (pre ++ cid),
          Event.probed config (pre ++ cid) o] = ([] : List (List α)) := by
        simp [nonAssertCallConfigs]
      rw [this, List.append_nil]
      exact hInv.nodup
    · intro c id o' h
      rcases List.mem_append.mp h with h | h
      · exact hInv.probedSound c id o' h
      · simp only [List.mem_cons, List.mem_singleton, List.not_mem_nil, or_false] at h
        rcases h with h | h
        · cases h
        · simp only [Event.probed.injEq] at h
          obtain ⟨rfl, -, rfl⟩ := h
          exact (hInv.sound _ _ hlk).symm
    · intro old p q len new h
      rcases List.mem_append.mp h with h | h
      · exact hInv.escOK old p q len new h
      · simp at h
    · intro a b h
      rcases List.mem_append.mp h with h | h
      · exact hInv.redOK a b h
      · simp at h
    · intro c h
      rcases hInv.fromCalls c h with h' | h'
      · exact Or.inl h'
      · exact Or.inr (by rw [nonAssertCallConfigs_append]; exact List.mem_append_left _ h')
    · intro hpre c id h
      rcases List.mem_append.mp h with h | h
      · exact hInv.lookupNoAssert hpre c id h
      · simp only [List.mem_cons, List.mem_singleton, List.not_mem_nil, or_false] at h
        rcases h with h | h
        · simp only [Event.lookup.injEq] at h
          obtain ⟨-, rfl⟩ := h
          simp only [List.mem_append]
          rintro (h' | h')
          · exact hpre h'
          · exact hcid h'
        · cases h
  | none =>
    by_cases hpre : "assert" ∈ pre
    · have hmem : "assert" ∈ pre ++ cid := List.mem_append_left cid hpre
      rw [probe_miss_assert_eq hlk hmem]
      refine ⟨hInv.sound, ?_, ?_, ?_, ?_, ?_, ?_, ?_, ?_⟩
      · intro c id o' h
        rcases List.mem_append.mp h with h | h
        · exact hInv.callSound c id o' h
        · simp only [List.mem_cons, List.mem_singleton, List.not_mem_nil, or_false] at h
          rcases h with h | h | h
          · cases h
          · simp only [Event.call.injEq] at h
            obtain ⟨rfl, -, rfl⟩ := h
            rfl
          · cases h
      · intro c id o' h hid
        rcases List.mem_append.mp h with h | h
        · exact hInv.callCached c id o' h hid
        · simp only [List.mem_cons, List.mem_singleton, List.not_mem_nil, or_false] at h
          rcases h with h | h | h
          · cases h
          · simp only [Event.call.injEq] at h
            obtain ⟨-, rfl, -⟩ := h
            exact absurd hmem hid
          · cases h
      · rw [nonAssertCallConfigs_append]
        have : nonAssertCallConfigs [Event.lookup config (pre ++ cid),
            Event.call config (pre ++ cid) (oracle config),
            Event.probed config (pre ++ cid) (oracle config)] = ([] : List (List α)) := by
          simp [nonAssertCallConfigs, hmem]
        rw [this, List.append_nil]
        exact hInv.nodup
      · intro c id o' h
        rcases List.mem_append.mp h with h | h
        · exact hInv.probedSound c id o' h
        · simp only [List.mem_cons, List.mem_singleton, List.not_mem_nil, or_false] at h
          rcases h with h | h | h
          · cases h
          · cases h
          · simp only [Event.probed.injEq] at h
            obtain ⟨rfl, -, rfl⟩ := h
            rfl
      · intro old p q len new h
        rcases List.mem_append.mp h with h | h
        · exact hInv.escOK old p q len new h
        · simp at h
      · intro a b h
        rcases List.mem_append.mp h with h | h
        · exact hInv.redOK a b h
        · simp at h
      · intro c h
        rcases hInv.fromCalls c h with h' | h'
        · exact Or.inl h'
        · exact Or.inr (by rw [nonAssertCallConfigs_append]; exact List.mem_append_left _ h')
      · intro hpre' c id h
        exact absurd hpre hpre'
    · have hmem : "assert" ∉ pre ++ cid := by
        simp only [List.mem_append]
        rintro (h' | h')
        · exact hpre h'
        · exact hcid h'
      rw [probe_miss_clean_eq hlk hmem]
      have hconfig_not : config ∉ nonAssertCallConfigs st.trace := by
        intro hmemc
        obtain ⟨id, o, hcall, hid⟩ := mem_nonAssertCallConfigs.mp hmemc
        have := hInv.callCached config id o hcall hid
        rw [hlk] at this
        cases this
      refine ⟨cacheSound_add hInv.sound config, ?_, ?_, ?_, ?_, ?_, ?_, ?_, ?_⟩
      · intro c id o' h
        rcases List.mem_append.mp h with h | h
        · exact hInv.callSound c id o' h
        · simp only [List.mem_cons, List.mem_singleton, List.not_mem_nil, or_false] at h
          rcases h with h | h | h | h
          · cases h
          · simp only [Event.call.injEq] at h
            obtain ⟨rfl, -, rfl⟩ := h
            rfl
          · cases h
          · cases h
      · intro c id o' h hid
        rcases List.mem_append.mp h with h | h
        · have ho' : o' = oracle c := hInv.callSound c id o' h
          by_cases hc : config = c
          · subst hc
            rw [cacheLookup_add_self, ho']
          · rw [cacheLookup_add_ne _ _ hc]
            exact hInv.callCached c id o' h hid
        · simp only [List.mem_cons, List.mem_singleton, List.not_mem_nil, or_false] at h
          rcases h with h | h | h | h
          · cases h
          · simp only [Event.call.injEq] at h
            obtain ⟨rfl, -, rfl⟩ := h
            rw [cacheLookup_add_self]
          · cases h
          · cases h
      · rw [nonAssertCallConfigs_append]
        have hnew : nonAssertCallConfigs [Event.lookup config (pre ++ cid),
            Event.call config (pre ++ cid) (oracle config),
            Event.store config (oracle config),
            Event.probed config (pre ++ cid) (oracle config)] = [config] := by
          simp [nonAssertCallConfigs, hmem]
        rw [hnew]
        refine List.Nodup.append hInv.nodup (List.nodup_singleton config) ?_
        intro a ha hb
        simp only [List.mem_singleton] at hb
        subst hb
        exact hconfig_not ha
      · intro c id o' h
        rcases List.mem_append.mp h with h | h
        · exact hInv.probedSound c id o' h
        · simp only [List.mem_cons, List.mem_singleton, List.not_mem_nil, or_false] at h
          rcases h with h | h | h | h
          · cases h
          · cases h
          · cases h
          · simp only [Event.probed.injEq] at h
            obtain ⟨rfl, -, rfl⟩ := h
            rfl
      · intro old p q len new h
        rcases List.mem_append.mp h with h | h
        · exact hInv.escOK old p q len new h
        · simp at h
      · intro a b h
        rcases List.mem_append.mp h with h | h
        · exact hInv.redOK a b h
        · simp at h
      · intro c h
        by_cases hc : config = c
        · subst hc
          refine Or.inr ?_
          rw [nonAssertCallConfigs_append]
          refine List.mem_append_right _ ?_
          simp [nonAssertCallConfigs, hmem]
        · rw [cacheLookup_add_ne _ _ hc] at h
          rcases hInv.fromCalls c h with h' | h'
          · exact Or.inl h'
          · exact Or.inr (by rw [nonAssertCallConfigs_append]; exact List.mem_append_left _ h')
      · intro hpre' c id h
        rcases List.mem_append.mp h with h | h
        · exact hInv.lookupNoAssert hpre' c id h
        · simp only [List.mem_cons, List.mem_singleton, List.not_mem_nil, or_false] at h
          rcases h with h | h | h | h
          · simp only [Event.lookup.injEq] at h
            obtain ⟨-, rfl⟩ := h
            exact hmem
          · cases h
          · cases h
          · cases h

theorem assert_not_mem_subset_cid (run i : Nat) :
    "assert" ∉ [runToken run, subsetToken i] := by
  simp only [List.mem_cons, List.not_mem_nil, or_false]
  rintro (h | h)
  · exact runToken_ne_assert run h.symm
  · exact subsetToken_ne_assert i h.symm

theorem assert_not_mem_compl_cid (run i : Nat) :
    "assert" ∉ [runToken run, complToken i] := by
  simp only [List.mem_cons, List.not_mem_nil, or_false]
  rintro (h | h)
  · exact runToken_ne_assert run h.symm
  · exact complToken_ne_assert i h.symm

/-! ### Subset phase -/

theorem inv_reduceToSubsetGo {oracle : Oracle α} {cache0 : Cache α} {pre : List String}
    {run : Nat} {subsets : List (List α)} {off : ℚ} :
    ∀ {L : List (Option Nat)} {st : DDState α} {p : Option (List (List α)) × ℚ}
      {st2 : DDState α}, Inv oracle cache0 pre st →
      reduceToSubsetGo oracle pre run subsets off L st = (p, st2) →
      Inv oracle cache0 pre st2 := by
  intro L
  induction L with
  | nil =>
    intro st p st2 hInv h
    simp only [reduceToSubsetGo] at h
    injection h with h1 h2
    subst h2
    exact hInv
  | cons hd rest ih =>
    intro st p st2 hInv h
    cases hd with
    | none =>
      simp only [reduceToSubsetGo] at h
      exact ih hInv h
    | some i =>
      have hInv' := inv_probe hInv (subsets.getD i []) [runToken run, subsetToken i]
        (assert_not_mem_subset_cid run i)
      simp only [reduceToSubsetGo] at h
      by_cases hfail :
        (probe oracle pre st (subsets.getD i []) [runToken run, subsetToken i]).1 =
          Outcome.FAIL
      · rw [if_pos hfail] at h
        injection h with h1 h2
        subst h2
        exact hInv'
      · rw [if_neg hfail] at h
        exact ih hInv' h

theorem reduceToSubsetGo_none {oracle : Oracle α} {cache0 : Cache α} {pre : List String}
    {run : Nat} {subsets : List (List α)} {off : ℚ} :
    ∀ {L : List (Option Nat)} {st st2 : DDState α} {off2 : ℚ},
      Inv oracle cache0 pre st →
      reduceToSubsetGo oracle pre run subsets off L st = ((none, off2), st2) →
      off2 = off ∧ ∀ i, some i ∈ L → oracle (subsets.getD i []) ≠ Outcome.FAIL := by
  intro L
  induction L with
  | nil =>
    intro st st2 off2 _ h
    simp only [reduceToSubsetGo] at h
    injection h with h1 h2
    injection h1 with h11 h12
    refine ⟨h12.symm, ?_⟩
    intro i hi
    cases hi
  | cons hd rest ih =>
    intro st st2 off2 hInv h
    cases hd with
    | none =>
      simp only [reduceToSubsetGo] at h
      obtain ⟨h1, h2⟩ := ih hInv h
      refine ⟨h1, ?_⟩
      intro i hi
      rcases List.mem_cons.mp hi with hi | hi
      · cases hi
      · exact h2 i hi
    | some i0 =>
      have hInv' := inv_probe hInv (subsets.getD i0 []) [runToken run, subsetToken i0]
        (assert_not_mem_subset_cid run i0)
      simp only [reduceToSubsetGo] at h
      by_cases hfail :
        (probe oracle pre st (subsets.getD i0 []) [runToken run, subsetToken i0]).1 =
          Outcome.FAIL
      · rw [if_pos hfail] at h
        injection h with h1 h2
        injection h1 with h11 h12
        exact Option.noConfusion h11
      · rw [if_neg hfail] at h
        obtain ⟨h1, h2⟩ := ih hInv' h
        refine ⟨h1, ?_⟩
        intro i hi
        rcases List.mem_cons.mp hi with hi | hi
        · injection hi with hi2
          subst hi2
          rw [probe_fst hInv.sound] at hfail
          exact hfail
        · exact h2 i hi

theorem reduceToSubsetGo_some {oracle : Oracle α} {cache0 : Cache α} {pre : List String}
    {run : Nat} {subsets : List (List α)} {off : ℚ} :
    ∀ {L : List (Option Nat)} {st st2 : DDState α} {nss : List (List α)} {off2 : ℚ},
      Inv oracle cache0 pre st →
      reduceToSubsetGo oracle pre run subsets off L st = ((some nss, off2), st2) →
      ∃ i, some i ∈ L ∧ oracle (subsets.getD i []) = Outcome.FAIL ∧
        nss = [subsets.getD i []] ∧ off2 = 0 := by
  intro L
  induction L with
  | nil =>
    intro st st2 nss off2 _ h
    simp only [reduceToSubsetGo] at h
    injection h with h1 h2
    injection h1 with h11 h12
    exact Option.noConfusion h11
  | cons hd rest ih =>
    intro st st2 nss off2 hInv h
    cases hd with
    | none =>
      simp only [reduceToSubsetGo] at h
      obtain ⟨i, hi, hrest⟩ := ih hInv h
      exact ⟨i, List.mem_cons_of_mem _ hi, hrest⟩
    | some i0 =>
      have hInv' := inv_probe hInv (subsets.getD i0 []) [runToken run, subsetToken i0]
        (assert_not_mem_subset_cid run i0)
      simp only [reduceToSubsetGo] at h
      by_cases hfail :
        (probe oracle pre st (subsets.getD i0 []) [runToken run, subsetToken i0]).1 =
          Outcome.FAIL
      · rw [if_pos hfail] at h
        injection h with h1 h2
        injection h1 with h11 h12
        injection h11 with h111
        refine ⟨i0, List.mem_cons_self _ _, ?_, h111.symm, h12.symm⟩
        rw [← probe_fst hInv.sound pre [runToken run, subsetToken i0] (subsets.getD i0 [])]
        exact hfail
      · rw [if_neg hfail] at h
        obtain ⟨i, hi, hrest⟩ := ih hInv' h
        exact ⟨i, List.mem_cons_of_mem _ hi, hrest⟩

/-! ### Complement phase -/

theorem inv_reduceToComplementGo {oracle : Oracle α} {cache0 : Cache α} {pre : List String}
    {run : Nat} {subsets : List (List α)} {off : ℚ} :
    ∀ {L : List (Option Nat)} {st : DDState α} {p : Option (List (List α)) × ℚ}
      {st2 : DDState α}, Inv oracle cache0 pre st →
      reduceToComplementGo oracle pre run subsets off L st = (p, st2) →
      Inv oracle cache0 pre st2 := by
  intro L
  induction L with
  | nil =>
    intro st p st2 hInv h
    simp only [reduceToComplementGo] at h
    injection h with h1 h2
    subst h2
    exact hInv
  | cons hd rest ih =>
    intro st p st2 hInv h
    cases hd with
    | none =>
      simp only [reduceToComplementGo] at h
      exact ih hInv h
    | some j =>
      have hInv' := inv_probe hInv
        (complementOf subsets (complementIndex j off subsets.length))
        [runToken run, complToken (complementIndex j off subsets.length)]
        (assert_not_mem_compl_cid run _)
      simp only [reduceToComplementGo] at h
      by_cases hfail :
        (probe oracle pre st (complementOf subsets (complementIndex j off subsets.length))
          [runToken run, complToken (complementIndex j off subsets.length)]).1 =
            Outcome.FAIL
      · rw [if_pos hfail] at h
        injection h with h1 h2
        subst h2
        exact hInv'
      · rw [if_neg hfail] at h
        exact ih hInv' h

theorem reduceToComplementGo_none {oracle : Oracle α} {cache0 : Cache α} {pre : List String}
    {run : Nat} {subsets : List (List α)} {off : ℚ} :
    ∀ {L : List (Option Nat)} {st st2 : DDState α} {off2 : ℚ},
      Inv oracle cache0 pre st →
      reduceToComplementGo oracle pre run subsets off L st = ((none, off2), st2) →
      off2 = off ∧ ∀ j, some j ∈ L →
        oracle (complementOf subsets (complementIndex j off subsets.length)) ≠
          Outcome.FAIL := by
  intro L
  induction L with
  | nil =>
    intro st st2 off2 _ h
    simp only [reduceToComplementGo] at h
    injection h with h1 h2
    injection h1 with h11 h12
    refine ⟨h12.symm, ?_⟩
    intro j hj
    cases hj
  | cons hd rest ih =>
    intro st st2 off2 hInv h
    cases hd with
    | none =>
      simp only [reduceToComplementGo] at h
      obtain ⟨h1, h2⟩ := ih hInv h
      refine ⟨h1, ?_⟩
      intro j hj
      rcases List.mem_cons.mp hj with hj | hj
      · cases hj
      · exact h2 j hj
    | some j0 =>
      have hInv' := inv_probe hInv
        (complementOf subsets (complementIndex j0 off subsets.length))
        [runToken run, complToken (complementIndex j0 off subsets.length)]
        (assert_not_mem_compl_cid run _)
      simp only [reduceToComplementGo] at h
      by_cases hfail :
        (probe oracle pre st (complementOf subsets (complementIndex j0 off subsets.length))
          [runToken run, complToken (complementIndex j0 off subsets.length)]).1 =
            Outcome.FAIL
      · rw [if_pos hfail] at h
        injection h with h1 h2
        injection h1 with h11 h12
        exact Option.noConfusion h11
      · rw [if_neg hfail] at h
        obtain ⟨h1, h2⟩ := ih hInv' h
        refine ⟨h1, ?_⟩
        intro j hj
        rcases List.mem_cons.mp hj with hj | hj
        · injection hj with hj2
          subst hj2
          rw [probe_fst hInv.sound] at hfail
          exact hfail
        · exact h2 j hj

theorem reduceToComplementGo_some {oracle : Oracle α} {cache0 : Cache α} {pre : List String}
    {run : Nat} {subsets : List (List α)} {off : ℚ} :
    ∀ {L : List (Option Nat)} {st st2 : DDState α} {nss : List (List α)} {off2 : ℚ},
      Inv oracle cache0 pre st →
      reduceToComplementGo oracle pre run subsets off L st = ((some nss, off2), st2) →
      ∃ j, some j ∈ L ∧
        oracle (complementOf subsets (complementIndex j off subsets.length)) = Outcome.FAIL ∧
        nss = subsets.take (complementIndex j off subsets.length) ++
          subsets.drop (complementIndex j off subsets.length + 1) ∧
        off2 = ((complementIndex j off subsets.length : Nat) : ℚ) := by
  intro L
  induction L with
  | nil =>
    intro st st2 nss off2 _ h
    simp only [reduceToComplementGo] at h
    injection h with h1 h2
    injection h1 with h11 h12
    exact Option.noConfusion h11
  | cons hd rest ih =>
    intro st st2 nss off2 hInv h
    cases hd with
    | none =>
      simp only [reduceToComplementGo] at h
      obtain ⟨j, hj, hrest⟩ := ih hInv h
      exact ⟨j, List.mem_cons_of_mem _ hj, hrest⟩
    | some j0 =>
      have hInv' := inv_probe hInv
        (complementOf subsets (complementIndex j0 off subsets.length))
        [runToken run, complToken (complementIndex j0 off subsets.length)]
        (assert_not_mem_compl_cid run _)
      simp only [reduceToComplementGo] at h
      by_cases hfail :
        (probe oracle pre st (complementOf subsets (complementIndex j0 off subsets.length))
          [runToken run, complToken (complementIndex j0 off subsets.length)]).1 =
            Outcome.FAIL
      · rw [if_pos hfail] at h
        injection h with h1 h2
        injection h1 with h11 h12
        injection h11 with h111
        refine ⟨j0, List.mem_cons_self _ _, ?_, h111.symm, h12.symm⟩
        rw [← probe_fst hInv.sound pre
          [runToken run, complToken (complementIndex j0 off subsets.length)]
          (complementOf subsets (complementIndex j0 off subsets.length))]
        exact hfail
      · rw [if_neg hfail] at h
        obtain ⟨j, hj, hrest⟩ := ih hInv' h
        exact ⟨j, List.mem_cons_of_mem _ hj, hrest⟩

/-! ### The reduce step -/

theorem reduceConfig_true_some {oracle : Oracle α} {pre : List String}
    {sIt : Nat → List (Option Nat)} {run : Nat} {subsets : List (List α)} {off : ℚ}
    {st st1 : DDState α} {ns : List (List α)} {off1 : ℚ}
    (h1 : reduceToSubsetGo oracle pre run subsets off (sIt subsets.length) st =
      ((some ns, off1), st1)) (cIt : Nat → List (Option Nat)) :
    reduceConfig oracle pre sIt cIt true run subsets off st = ((some ns, off1), st1) := by
  simp [reduceConfig, reduceToSubset, h1]

theorem reduceConfig_true_none {oracle : Oracle α} {pre : List String}
    {sIt : Nat → List (Option Nat)} {run : Nat} {subsets : List (List α)} {off : ℚ}
    {st st1 : DDState α} {off1 : ℚ}
    (h1 : reduceToSubsetGo oracle pre run subsets off (sIt subsets.length) st =
      ((none, off1), st1)) (cIt : Nat → List (Option Nat)) :
    reduceConfig oracle pre sIt cIt true run subsets off st =
      reduceToComplementGo oracle pre run subsets off1 (cIt subsets.length) st1 := by
  simp [reduceConfig, reduceToSubset, reduceToComplement, h1]

theorem reduceConfig_false_some {oracle : Oracle α} {pre : List String}
    {cIt : Nat → List (Option Nat)} {run : Nat} {subsets : List (List α)} {off : ℚ}
    {st st1 : DDState α} {ns : List (List α)} {off1 : ℚ}
    (h1 : reduceToComplementGo oracle pre run subsets off (cIt subsets.length) st =
      ((some ns, off1), st1)) (sIt : Nat → List (Option Nat)) :
    reduceConfig oracle pre sIt cIt false run subsets off st = ((some ns, off1), st1) := by
  simp [reduceConfig, reduceToComplement, h1]

theorem reduceConfig_false_none {oracle : Oracle α} {pre : List String}
    {cIt : Nat → List (Option Nat)} {run : Nat} {subsets : List (List α)} {off : ℚ}
    {st st1 : DDState α} {off1 : ℚ}
    (h1 : reduceToComplementGo oracle pre run subsets off (cIt subsets.length) st =
      ((none, off1), st1)) (sIt : Nat → List (Option Nat)) :
    reduceConfig oracle pre sIt cIt false run subsets off st =
      reduceToSubsetGo oracle pre run subsets off1 (sIt subsets.length) st1 := by
  simp [reduceConfig, reduceToSubset, reduceToComplement, h1]

theorem inv_reduceConfig {oracle : Oracle α} {cache0 : Cache α} {pre : List String}
    {sIt cIt : Nat → List (Option Nat)} {sf : Bool} {run : Nat} {subsets : List (List α)}
    {off : ℚ} {st st2 : DDState α} {p : Option (List (List α)) × ℚ}
    (hInv : Inv oracle cache0 pre st)
    (h : reduceConfig oracle pre sIt cIt sf run subsets off st = (p, st2)) :
    Inv oracle cache0 pre st2 := by
  cases sf
  · rcases h1 : reduceToComplementGo oracle pre run subsets off (cIt subsets.length) st
      with ⟨⟨r1, off1⟩, st1⟩
    have hInv1 : Inv oracle cache0 pre st1 := inv_reduceToComplementGo hInv h1
    cases r1 with
    | some ns =>
      rw [reduceConfig_false_some h1 sIt] at h
      injection h with h2 h3
      subst h3
      exact hInv1
    | none =>
      rw [reduceConfig_false_none h1 sIt] at h
      exact inv_reduceToSubsetGo hInv1 h
  · rcases h1 : reduceToSubsetGo oracle pre run subsets off (sIt subsets.length) st
      with ⟨⟨r1, off1⟩, st1⟩
    have hInv1 : Inv oracle cache0 pre st1 := inv_reduceToSubsetGo hInv h1
    cases r1 with
    | some ns =>
      rw [reduceConfig_true_some h1 cIt] at h
      injection h with h2 h3
      subst h3
      exact hInv1
    | none =>
      rw [reduceConfig_true_none h1 cIt] at h
      exact inv_reduceToComplementGo hInv1 h

theorem reduceConfig_none {oracle : Oracle α} {cache0 : Cache α} {pre : List String}
    {sIt cIt : Nat → List (Option Nat)} {sf : Bool} {run : Nat} {subsets : List (List α)}
    {off : ℚ} {st st2 : DDState α} {off2 : ℚ}
    (hInv : Inv oracle cache0 pre st)
    (h : reduceConfig oracle pre sIt cIt sf run subsets off st = ((none, off2), st2)) :
    off2 = off ∧
    (∀ i, some i ∈ sIt subsets.length → oracle (subsets.getD i []) ≠ Outcome.FAIL) ∧
    (∀ j, some j ∈ cIt subsets.length →
      oracle (complementOf subsets (complementIndex j off subsets.length)) ≠
        Outcome.FAIL) := by
  cases sf
  · rcases h1 : reduceToComplementGo oracle pre run subsets off (cIt subsets.length) st
      with ⟨⟨r1, off1⟩, st1⟩
    have hInv1 : Inv oracle cache0 pre st1 := inv_reduceToComplementGo hInv h1
    cases r1 with
    | some ns =>
      rw [reduceConfig_false_some h1 sIt] at h
      injection h with h2 h3
      injection h2 with h21 h22
      exact Option.noConfusion h21
    | none =>
      obtain ⟨hoff1, hcompl⟩ := reduceToComplementGo_none hInv h1
      subst hoff1
      rw [reduceConfig_false_none h1 sIt] at h
      obtain ⟨hoff2, hsub⟩ := reduceToSubsetGo_none hInv1 h
      exact ⟨hoff2, hsub, hcompl⟩
  · rcases h1 : reduceToSubsetGo oracle pre run subsets off (sIt subsets.length) st
      with ⟨⟨r1, off1⟩, st1⟩
    have hInv1 : Inv oracle cache0 pre st1 := inv_reduceToSubsetGo hInv h1
    cases r1 with
    | some ns =>
      rw [reduceConfig_true_some h1 cIt] at h
      injection h with h2 h3
      injection h2 with h21 h22
      exact Option.noConfusion h21
    | none =>
      obtain ⟨hoff1, hsub⟩ := reduceToSubsetGo_none hInv h1
      subst hoff1
      rw [reduceConfig_true_none h1 cIt] at h
      obtain ⟨hoff2, hcompl⟩ := reduceToComplementGo_none hInv1 h
      exact ⟨hoff2, hsub, hcompl⟩

theorem reduceConfig_some {oracle : Oracle α} {cache0 : Cache α} {pre : List String}
    {sIt cIt : Nat → List (Option Nat)} {sf : Bool} {run : Nat} {subsets : List (List α)}
    {off : ℚ} {st st2 : DDState α} {nss : List (List α)} {off2 : ℚ}
    (hInv : Inv oracle cache0 pre st)
    (h : reduceConfig oracle pre sIt cIt sf run subsets off st = ((some nss, off2), st2)) :
    (∃ i, some i ∈ sIt subsets.length ∧ oracle (subsets.getD i []) = Outcome.FAIL ∧
      nss = [subsets.getD i []] ∧ off2 = 0) ∨
    (∃ j, some j ∈ cIt subsets.length ∧
      oracle (complementOf subsets (complementIndex j off subsets.length)) = Outcome.FAIL ∧
      nss = subsets.take (complementIndex j off subsets.length) ++
        subsets.drop (complementIndex j off subsets.length + 1) ∧
      off2 = ((complementIndex j off subsets.length : Nat) : ℚ)) := by
  cases sf
  · rcases h1 : reduceToComplementGo oracle pre run subsets off (cIt subsets.length) st
      with ⟨⟨r1, off1⟩, st1⟩
    have hInv1 : Inv oracle cache0 pre st1 := inv_reduceToComplementGo hInv h1
    cases r1 with
    | some ns =>
      rw [reduceConfig_false_some h1 sIt] at h
      right
      exact reduceToComplementGo_some hInv (h1.trans h)
    | none =>
      obtain ⟨hoff1, -⟩ := reduceToComplementGo_none hInv h1
      subst hoff1
      rw [reduceConfig_false_none h1 sIt] at h
      left
      exact reduceToSubsetGo_some hInv1 h
  · rcases h1 : reduceToSubsetGo oracle pre run subsets off (sIt subsets.length) st
      with ⟨⟨r1, off1⟩, st1⟩
    have hInv1 : Inv oracle cache0 pre st1 := inv_reduceToSubsetGo hInv h1
    cases r1 with
    | some ns =>
      rw [reduceConfig_true_some h1 cIt] at h
      left
      exact reduceToSubsetGo_some hInv (h1.trans h)
    | none =>
      obtain ⟨hoff1, -⟩ := reduceToSubsetGo_none hInv h1
      subst hoff1
      rw [reduceConfig_true_none h1 cIt] at h
      right
      exact reduceToComplementGo_some hInv1 h


end Invariants

/-! ## Support lemmas for the outer loop -/

section LoopSupport

variable {α : Type} [DecidableEq α]

theorem flatten_sublist {l1 l2 : List (List α)} (h : List.Sublist l1 l2) :
    List.Sublist l1.flatten l2.flatten := by
  induction h with
  | slnil => exact List.Sublist.refl _
  | cons a h2 ih =>
    rw [List.flatten_cons]
    exact ih.trans (List.sublist_append_right a _)
  | cons₂ a h2 ih =>
    rw [List.flatten_cons, List.flatten_cons]
    exact (List.Sublist.refl a).append ih

theorem flatten_map_singleton (l : List α) : (l.map (fun x => [x])).flatten = l := by
  induction l with
  | nil => rfl
  | cons a t ih => simp [ih]

theorem complementOf_map_singleton (config : List α) (i : Nat) :
    complementOf (config.map (fun x => [x])) i = config.eraseIdx i := by
  rw [complementOf_eq, List.eraseIdx_eq_take_drop_succ,
    ← List.map_take, ← List.map_drop, ← List.map_append, flatten_map_singleton]

theorem sum_map_length_ge {l : List (List α)} (h : ∀ s ∈ l, 1 ≤ s.length) :
    l.length ≤ (l.map List.length).sum := by
  induction l with
  | nil => simp
  | cons a t ih =>
    simp only [List.map_cons, List.sum_cons, List.length_cons]
    have h1 : 1 ≤ a.length := h a (List.mem_cons_self _ _)
    have h2 := ih (fun s hs => h s (List.mem_cons_of_mem _ hs))
    omega

theorem flatten_eraseIdx_length {subsets : List (List α)} {i : Nat}
    (h : i < subsets.length) :
    ((subsets.take i ++ subsets.drop (i + 1)).flatten).length +
      (subsets.getD i []).length = subsets.flatten.length := by
  have hsplit : subsets = subsets.take i ++ subsets.drop i := (List.take_append_drop i _).symm
  have hdrop : subsets.drop i = subsets[i] :: subsets.drop (i + 1) :=
    List.drop_eq_getElem_cons h
  have hgetD : subsets.getD i [] = subsets[i] := List.getD_eq_getElem subsets [] h
  calc ((subsets.take i ++ subsets.drop (i + 1)).flatten).length +
        (subsets.getD i []).length
      = ((subsets.take i).flatten).length + ((subsets.drop (i + 1)).flatten).length +
        (subsets[i]).length := by rw [List.flatten_append, List.length_append, hgetD]
    _ = ((subsets.take i).flatten).length +
        ((subsets[i] :: subsets.drop (i + 1)).flatten).length := by
        rw [List.flatten_cons, List.length_append]
        omega
    _ = subsets.flatten.length := by
        conv_rhs => rw [hsplit, hdrop]
        rw [List.flatten_append, List.length_append]

/-- Subsets made of unit slices are the singletons of the configuration:
the finest-split case. -/
theorem chain_units {config : List α} :
    ∀ {sl : List Slice} {pos : Nat}, chain config.length pos sl →
      sl.length = config.length - pos →
      sl.map (sliceList config) = (config.drop pos).map (fun x => [x]) := by
  intro sl
  induction sl with
  | nil =>
    intro pos hch hlen
    have : pos = config.length := hch
    subst this
    simp [List.drop_eq_nil_of_le (le_refl config.length)]
  | cons s rest ih =>
    intro pos hch hlen
    obtain ⟨h1, h2, h3, h4⟩ := hch
    have hcount := chain_count_le h4
    simp only [List.length_cons] at hlen
    have hstop : s.stop = pos + 1 := by omega
    have hpos : pos < config.length := by omega
    have hrest := ih h4 (by omega)
    rw [hstop] at hrest
    have hdrop : config.drop pos = config[pos] :: config.drop (pos + 1) :=
      List.drop_eq_getElem_cons hpos
    have hhead : sliceList config s = [config[pos]] := by
      simp only [sliceList, h1, hstop]
      rw [show pos + 1 - pos = 1 by omega, hdrop]
      rfl
    simp only [List.map_cons, hhead, hrest, hdrop]

/-- The fuel measure of the outer loop: lexicographic in configuration
length, then in the number of slices still to be gained. -/
def ddMeasure (clen scount : Nat) : Nat :=
  clen * (clen + 2) + (clen - scount)

theorem ddMeasure_config_lt {c1 s1 c s : Nat} (h : c1 < c) :
    ddMeasure c1 s1 < ddMeasure c s := by
  have h1 : ddMeasure c1 s1 ≤ c1 * (c1 + 2) + c1 := by
    simp only [ddMeasure]
    omega
  have h2 : c1 * (c1 + 2) + c1 = c1 * (c1 + 3) := by ring
  have h3 : c1 * (c1 + 3) ≤ (c - 1) * (c + 2) := by
    refine Nat.mul_le_mul (by omega) (by omega)
  have h4 : (c - 1) * (c + 2) < c * (c + 2) := by
    refine Nat.mul_lt_mul_of_lt_of_le (by omega) (le_refl _) (by omega)
  have h5 : c * (c + 2) ≤ ddMeasure c s := by
    simp only [ddMeasure]
    omega
  omega

theorem ddMeasure_slices_lt {c s s' : Nat} (h1 : s < s') (h2 : s' ≤ c) :
    ddMeasure c s' < ddMeasure c s := by
  simp only [ddMeasure]
  omega

theorem inv_append_reduced {oracle : Oracle α} {cache0 : Cache α} {pre : List String}
    {st : DDState α} (hInv : Inv oracle cache0 pre st) {a b : Nat} (hab : b < a) :
    Inv oracle cache0 pre ⟨st.cache, st.trace ++ [Event.reduced a b]⟩ := by
  refine ⟨hInv.sound, ?_, ?_, ?_, ?_, ?_, ?_, ?_, ?_⟩
  · intro c id o h
    rcases List.mem_append.mp h with h | h
    · exact hInv.callSound c id o h
    · simp at h
  · intro c id o h hid
    rcases List.mem_append.mp h with h | h
    · exact hInv.callCached c id o h hid
    · simp at h
  · rw [nonAssertCallConfigs_append]
    have : nonAssertCallConfigs [Event.reduced (α := α) a b] = [] := by
      simp [nonAssertCallConfigs]
    rw [this, List.append_nil]
    exact hInv.nodup
  · intro c id o h
    rcases List.mem_append.mp h with h | h
    · exact hInv.probedSound c id o h
    · simp at h
  · intro old p q len new h
    rcases List.mem_append.mp h with h | h
    · exact hInv.escOK old p q len new h
    · simp at h
  · intro a' b' h
    rcases List.mem_append.mp h with h | h
    · exact hInv.redOK a' b' h
    · simp only [List.mem_singleton, Event.reduced.injEq] at h
      obtain ⟨rfl, rfl⟩ := h
      exact hab
  · intro c h
    rcases hInv.fromCalls c h with h' | h'
    · exact Or.inl h'
    · exact Or.inr (by rw [nonAssertCallConfigs_append]; exact List.mem_append_left _ h')
  · intro hpre c id h
    rcases List.mem_append.mp h with h | h
    · exact hInv.lookupNoAssert hpre c id h
    · simp at h

theorem inv_append_escalate {oracle : Oracle α} {cache0 : Cache α} {pre : List String}
    {st : DDState α} (hInv : Inv oracle cache0 pre st) {old new : ℚ} {p q len : Nat}
    (h1 : new = old * (q : ℚ) / (p : ℚ)) (h2 : p < q) (h3 : q ≤ len) :
    Inv oracle cache0 pre ⟨st.cache, st.trace ++ [Event.escalate old p q len new]⟩ := by
  refine ⟨hInv.sound, ?_, ?_, ?_, ?_, ?_, ?_, ?_, ?_⟩
  · intro c id o h
    rcases List.mem_append.mp h with h | h
    · exact hInv.callSound c id o h
    · simp at h
  · intro c id o h hid
    rcases List.mem_append.mp h with h | h
    · exact hInv.callCached c id o h hid
    · simp at h
  · rw [nonAssertCallConfigs_append]
    have : nonAssertCallConfigs [Event.escalate (α := α) old p q len new] = [] := by
      simp [nonAssertCallConfigs]
    rw [this, List.append_nil]
    exact hInv.nodup
  · intro c id o h
    rcases List.mem_append.mp h with h | h
    · exact hInv.probedSound c id o h
    · simp at h
  · intro old' p' q' len' new' h
    rcases List.mem_append.mp h with h | h
    · exact hInv.escOK old' p' q' len' new' h
    · simp only [List.mem_singleton, Event.escalate.injEq] at h
      obtain ⟨rfl, rfl, rfl, rfl, rfl⟩ := h
      exact ⟨h1, h2, h3⟩
  · intro a' b' h
    rcases List.mem_append.mp h with h | h
    · exact hInv.redOK a' b' h
    · simp at h
  · intro c h
    rcases hInv.fromCalls c h with h' | h'
    · exact Or.inl h'
    · exact Or.inr (by rw [nonAssertCallConfigs_append]; exact List.mem_append_left _ h')
  · intro hpre c id h
    rcases List.mem_append.mp h with h | h
    · exact hInv.lookupNoAssert hpre c id h
    · simp at h

/-! ### One-step unfoldings of the outer loop -/

theorem ddminGo_succ_assertFailed {oracle : Oracle α} {pre : List String}
    {sIt cIt : Nat → List (Option Nat)} {sf : Bool} {n fuel run : Nat} {config : List α}
    {slices : List Slice} {off : ℚ} {st : DDState α}
    (hcond : oracle config ≠ Outcome.FAIL) :
    ddminGo oracle pre sIt cIt sf n (fuel + 1) run config slices off st =
      (DDRes.assertFailed, (testConfig oracle pre st config [runToken run, "assert"]).2) := by
  simp only [ddminGo]
  rw [if_neg (by rw [testConfig_fst]; exact hcond)]

theorem ddminGo_succ_small {oracle : Oracle α} {pre : List String}
    {sIt cIt : Nat → List (Option Nat)} {sf : Bool} {n fuel run : Nat} {config : List α}
    {slices : List Slice} {off : ℚ} {st : DDState α}
    (hcond : oracle config = Outcome.FAIL) (hlen : config.length < 2) :
    ddminGo oracle pre sIt cIt sf n (fuel + 1) run config slices off st =
      (DDRes.done config, (testConfig oracle pre st config [runToken run, "assert"]).2) := by
  simp only [ddminGo]
  rw [if_pos (by rw [testConfig_fst]; exact hcond), if_pos hlen]

theorem ddminGo_succ_reduce {oracle : Oracle α} {pre : List String}
    {sIt cIt : Nat → List (Option Nat)} {sf : Bool} {n fuel run : Nat} {config : List α}
    {slices : List Slice} {off : ℚ} {st st1 : DDState α} {SL : List Slice}
    {nss : List (List α)} {off1 : ℚ}
    (hSL : SL = if slices.length < 2 then
      splitBalanced config.length (min config.length n) else slices)
    (hcond : oracle config = Outcome.FAIL) (hlen : ¬config.length < 2)
    (hr : reduceConfig oracle pre sIt cIt sf run (SL.map (sliceList config)) off
      (testConfig oracle pre st config [runToken run, "assert"]).2 = ((some nss, off1), st1)) :
    ddminGo oracle pre sIt cIt sf n (fuel + 1) run config slices off st =
      ddminGo oracle pre sIt cIt sf n fuel (run + 1) nss.flatten
        (sizesToSlices 0 (nss.map List.length)) off1
        ⟨st1.cache, st1.trace ++ [Event.reduced config.length nss.flatten.length]⟩ := by
  subst hSL
  simp only [ddminGo]
  rw [if_pos (by rw [testConfig_fst]; exact hcond), if_neg hlen, hr]

theorem ddminGo_succ_escalate {oracle : Oracle α} {pre : List String}
    {sIt cIt : Nat → List (Option Nat)} {sf : Bool} {n fuel run : Nat} {config : List α}
    {slices : List Slice} {off : ℚ} {st st1 : DDState α} {SL : List Slice} {off1 : ℚ}
    (hSL : SL = if slices.length < 2 then
      splitBalanced config.length (min config.length n) else slices)
    (hcond : oracle config = Outcome.FAIL) (hlen : ¬config.length < 2)
    (hr : reduceConfig oracle pre sIt cIt sf run (SL.map (sliceList config)) off
      (testConfig oracle pre st config [runToken run, "assert"]).2 = ((none, off1), st1))
    (hesc : SL.length < config.length) :
    ddminGo oracle pre sIt cIt sf n (fuel + 1) run config slices off st =
      ddminGo oracle pre sIt cIt sf n fuel (run + 1) config
        (splitBalanced config.length (min config.length (SL.length * n)))
        (off1 * ((splitBalanced config.length (min config.length (SL.length * n))).length : ℚ) /
          (SL.length : ℚ))
        ⟨st1.cache, st1.trace ++ [Event.escalate off1 SL.length
          (splitBalanced config.length (min config.length (SL.length * n))).length
          config.length
          (off1 * ((splitBalanced config.length
            (min config.length (SL.length * n))).length : ℚ) / (SL.length : ℚ))]⟩ := by
  subst hSL
  simp only [ddminGo]
  rw [if_pos (by rw [testConfig_fst]; exact hcond), if_neg hlen, hr]
  dsimp only
  rw [if_pos hesc]

theorem ddminGo_succ_finest {oracle : Oracle α} {pre : List String}
    {sIt cIt : Nat → List (Option Nat)} {sf : Bool} {n fuel run : Nat} {config : List α}
    {slices : List Slice} {off : ℚ} {st st1 : DDState α} {SL : List Slice} {off1 : ℚ}
    (hSL : SL = if slices.length < 2 then
      splitBalanced config.length (min config.length n) else slices)
    (hcond : oracle config = Outcome.FAIL) (hlen : ¬config.length < 2)
    (hr : reduceConfig oracle pre sIt cIt sf run (SL.map (sliceList config)) off
      (testConfig oracle pre st config [runToken run, "assert"]).2 = ((none, off1), st1))
    (hesc : ¬SL.length < config.length) :
    ddminGo oracle pre sIt cIt sf n (fuel + 1) run config slices off st =
      (DDRes.done config, st1) := by
  subst hSL
  simp only [ddminGo]
  rw [if_pos (by rw [testConfig_fst]; exact hcond), if_neg hlen, hr]
  dsimp only
  rw [if_neg hesc]

/-! ### The master lemma on the outer loop -/

/-- The combined correctness lemma for `ddminGo` with the default forward
iterators: enough fuel is never exhausted; the run invariant is preserved;
on a failing entry configuration a configuration is returned; and any
returned configuration is a failing subsequence of the input that is
1-minimal whenever it has at least two units. -/
theorem ddminGo_master {oracle : Oracle α} {cache0 : Cache α} {pre : List String}
    {sf : Bool} {n : Nat} (hn : 2 ≤ n) :
    ∀ (fuel : Nat) (config : List α) (slices : List Slice) (off : ℚ) (st : DDState α)
      (run : Nat),
      ddMeasure config.length slices.length < fuel →
      (chain config.length 0 slices ∨ slices = []) →
      0 ≤ off →
      Inv oracle cache0 pre st →
      (ddminGo oracle pre forward forward sf n fuel run config slices off st).1 ≠
          DDRes.outOfFuel ∧
        Inv oracle cache0 pre
          (ddminGo oracle pre forward forward sf n fuel run config slices off st).2 ∧
        (oracle config = Outcome.FAIL →
          ∃ C2, (ddminGo oracle pre forward forward sf n fuel run config slices off st).1 =
            DDRes.done C2) ∧
        (∀ C2, (ddminGo oracle pre forward forward sf n fuel run config slices off st).1 =
            DDRes.done C2 →
          List.Sublist C2 config ∧ oracle C2 = Outcome.FAIL ∧
          (2 ≤ C2.length → ∀ k, k < C2.length →
            oracle (C2.eraseIdx k) = Outcome.PASS)) := by
  intro fuel
  induction fuel with
  | zero =>
    intro config slices off st run hfuel hwf hoff hInv
    omega
  | succ fuel ih =>
    intro config slices off st run hfuel hwf hoff hInv
    have hInvA : Inv oracle cache0 pre
        (testConfig oracle pre st config [runToken run, "assert"]).2 :=
      inv_testConfig_assert hInv config [runToken run, "assert"] (by simp)
    by_cases horacle : oracle config = Outcome.FAIL
    case neg =>
      rw [ddminGo_succ_assertFailed horacle]
      refine ⟨fun h => DDRes.noConfusion h, hInvA, ?_, ?_⟩
      · intro h
        exact absurd h horacle
      · intro C2 h
        exact DDRes.noConfusion h
    case pos =>
      by_cases hlen : config.length < 2
      case pos =>
        rw [ddminGo_succ_small horacle hlen]
        refine ⟨fun h => DDRes.noConfusion h, hInvA, fun _ => ⟨config, rfl⟩, ?_⟩
        intro C2 h
        have h2 : DDRes.done (α := α) config = DDRes.done C2 := h
        injection h2 with h3
        subst h3
        exact ⟨List.Sublist.refl _, horacle, fun h4 => absurd h4 (by omega)⟩
      case neg =>
        set SL := if slices.length < 2 then
          splitBalanced config.length (min config.length n) else slices with hSL
        have hSLfacts : chain config.length 0 SL ∧ 2 ≤ SL.length ∧
            slices.length ≤ SL.length := by
          rw [hSL]
          by_cases hsl : slices.length < 2
          · rw [if_pos hsl]
            have hk2 : 2 ≤ min config.length n := le_min (by omega) hn
            refine ⟨splitBalanced_chain (by omega) (min_le_left _ _), ?_, ?_⟩
            · rw [splitBalanced_length]
              exact hk2
            · rw [splitBalanced_length]
              omega
          · rw [if_neg hsl]
            rcases hwf with hch | hnil
            · exact ⟨hch, by omega, le_refl _⟩
            · rw [hnil] at hsl
              simp at hsl
        obtain ⟨hSLchain, hSL2, hSLge⟩ := hSLfacts
        have hSLle : SL.length ≤ config.length := by
          have := chain_count_le hSLchain
          omega
        have hflat : (SL.map (sliceList config)).flatten = config := by
          have := chain_flatten hSLchain
          rwa [List.drop_zero] at this
        have hslen : (SL.map (sliceList config)).length = SL.length := List.length_map _ _
        have hposs : ∀ s ∈ SL.map (sliceList config), 1 ≤ s.length := by
          intro s hs
          obtain ⟨sl, hsl, rfl⟩ := List.mem_map.mp hs
          obtain ⟨hb1, hb2⟩ := chain_mem_bounds hSLchain sl hsl
          rw [sliceList_length (le_of_lt hb1) hb2]
          omega
        rcases hr : reduceConfig oracle pre forward forward sf run
            (SL.map (sliceList config)) off
            (testConfig oracle pre st config [runToken run, "assert"]).2
          with ⟨⟨r1, off1⟩, st1⟩
        have hInv1 : Inv oracle cache0 pre st1 := inv_reduceConfig hInvA hr
        cases r1 with
        | some nss =>
          have hfacts : oracle nss.flatten = Outcome.FAIL ∧
              List.Sublist nss.flatten config ∧
              nss.flatten.length < config.length ∧
              (∀ s ∈ nss, s ∈ SL.map (sliceList config)) ∧ 0 ≤ off1 := by
            rcases reduceConfig_some hInvA hr with
              ⟨i, hiL, hifail, hnss, hoff1⟩ | ⟨j, hjL, hjfail, hnss, hoff1⟩
            · have hi : i < (SL.map (sliceList config)).length := mem_forward.mp hiL
              have hgetD : (SL.map (sliceList config)).getD i [] =
                  (SL.map (sliceList config))[i] := List.getD_eq_getElem _ [] hi
              have hmem_i : (SL.map (sliceList config)).getD i [] ∈
                  SL.map (sliceList config) := by
                rw [hgetD]
                exact List.getElem_mem hi
              have hflatten1 : nss.flatten = (SL.map (sliceList config)).getD i [] := by
                rw [hnss]
                simp
              have herase := flatten_eraseIdx_length hi
              have hcnt : ((SL.map (sliceList config)).take i ++
                  (SL.map (sliceList config)).drop (i + 1)).length =
                  (SL.map (sliceList config)).length - 1 := by
                rw [List.length_append, List.length_take, List.length_drop]
                omega
              have hge1 := sum_map_length_ge (l := (SL.map (sliceList config)).take i ++
                (SL.map (sliceList config)).drop (i + 1)) (by
                  intro s hs
                  rcases List.mem_append.mp hs with hs | hs
                  · exact hposs s (List.mem_of_mem_take hs)
                  · exact hposs s (List.mem_of_mem_drop hs))
              have hflatlen : (((SL.map (sliceList config)).take i ++
                  (SL.map (sliceList config)).drop (i + 1)).flatten).length =
                  ((((SL.map (sliceList config)).take i ++
                  (SL.map (sliceList config)).drop (i + 1))).map List.length).sum :=
                List.length_flatten _
              have hflen : ((SL.map (sliceList config)).flatten).length = config.length := by
                rw [hflat]
              refine ⟨by rw [hflatten1]; exact hifail, ?_, ?_, ?_, le_of_eq hoff1.symm⟩
              · rw [hflatten1]
                have hx := List.sublist_flatten_of_mem hmem_i
                rw [hflat] at hx
                exact hx
              · rw [hflatten1, ← hflen]
                rw [hslen] at hcnt
                omega
              · intro s hs
                rw [hnss] at hs
                simp only [List.mem_singleton] at hs
                subst hs
                exact hmem_i
            · have hn0 : 0 < (SL.map (sliceList config)).length := by
                rw [hslen]
                omega
              have hi : complementIndex j off (SL.map (sliceList config)).length <
                  (SL.map (sliceList config)).length := complementIndex_lt j hoff hn0
              have hflatten1 : nss.flatten =
                  complementOf (SL.map (sliceList config))
                    (complementIndex j off (SL.map (sliceList config)).length) := by
                rw [hnss, ← complementOf_eq]
              have herase := flatten_eraseIdx_length hi
              have hposi : 1 ≤ ((SL.map (sliceList config)).getD
                  (complementIndex j off (SL.map (sliceList config)).length) []).length := by
                rw [List.getD_eq_getElem _ [] hi]
                exact hposs _ (List.getElem_mem hi)
              have hflen : ((SL.map (sliceList config)).flatten).length = config.length := by
                rw [hflat]
              refine ⟨by rw [hflatten1]; exact hjfail, ?_, ?_, ?_, ?_⟩
              · rw [hnss, ← List.eraseIdx_eq_take_drop_succ]
                have hx := flatten_sublist (List.eraseIdx_sublist (SL.map (sliceList config))
                  (complementIndex j off (SL.map (sliceList config)).length))
                rw [hflat] at hx
                exact hx
              · rw [hnss, ← hflen]
                omega
              · intro s hs
                rw [hnss] at hs
                rcases List.mem_append.mp hs with hs | hs
                · exact List.mem_of_mem_take hs
                · exact List.mem_of_mem_drop hs
              · rw [hoff1]
                exact Nat.cast_nonneg _
          obtain ⟨hfail1, hsub, hlt, hmemn, hoff1n⟩ := hfacts
          have hposn : ∀ sz ∈ nss.map List.length, 1 ≤ sz := by
            intro sz hsz
            obtain ⟨s, hs, rfl⟩ := List.mem_map.mp hsz
            exact hposs s (hmemn s hs)
          have hchain1 : chain nss.flatten.length 0
              (sizesToSlices 0 (nss.map List.length)) :=
            sizesToSlices_chain hposn (by rw [Nat.zero_add, List.length_flatten])
          have hfuel' : ddMeasure nss.flatten.length
              (sizesToSlices 0 (nss.map List.length)).length < fuel := by
            have h6 : ddMeasure nss.flatten.length
                (sizesToSlices 0 (nss.map List.length)).length <
                ddMeasure config.length slices.length := ddMeasure_config_lt hlt
            omega
          rw [ddminGo_succ_reduce hSL horacle hlen hr]
          obtain ⟨R1, R2, R0, R3⟩ := ih nss.flatten (sizesToSlices 0 (nss.map List.length))
            off1 ⟨st1.cache, st1.trace ++ [Event.reduced config.length nss.flatten.length]⟩
            (run + 1) hfuel' (Or.inl hchain1) hoff1n (inv_append_reduced hInv1 hlt)
          refine ⟨R1, R2, fun _ => R0 hfail1, ?_⟩
          intro C2 hC2
          obtain ⟨hs1, hs2, hs3⟩ := R3 C2 hC2
          exact ⟨hs1.trans hsub, hs2, hs3⟩
        | none =>
          obtain ⟨hoffeq, hsuball, hcomplall⟩ := reduceConfig_none hInvA hr
          subst hoffeq
          by_cases hesc : SL.length < config.length
          · have hK1 : 1 ≤ min config.length (SL.length * n) := by
              have : 2 ≤ config.length := by omega
              have : 2 ≤ SL.length * n := by nlinarith
              omega
            have hKle : min config.length (SL.length * n) ≤ config.length :=
              min_le_left _ _
            have hKgt : SL.length < min config.length (SL.length * n) := by
              rcases le_or_lt config.length (SL.length * n) with hcase | hcase
              · rw [min_eq_left hcase]
                exact hesc
              · rw [min_eq_right (le_of_lt hcase)]
                nlinarith
            have hchainN : chain config.length 0
                (splitBalanced config.length (min config.length (SL.length * n))) :=
              splitBalanced_chain hK1 hKle
            have hNlen : (splitBalanced config.length
                (min config.length (SL.length * n))).length =
                min config.length (SL.length * n) := splitBalanced_length _ _
            have hoff2n : 0 ≤ off1 * ((splitBalanced config.length
                (min config.length (SL.length * n))).length : ℚ) / (SL.length : ℚ) := by
              have h1 : (0 : ℚ) ≤ off1 * ((splitBalanced config.length
                  (min config.length (SL.length * n))).length : ℚ) :=
                mul_nonneg hoff (Nat.cast_nonneg _)
              exact div_nonneg h1 (Nat.cast_nonneg _)
            have hfuel' : ddMeasure config.length (splitBalanced config.length
                (min config.length (SL.length * n))).length < fuel := by
              have h6 : ddMeasure config.length (splitBalanced config.length
                  (min config.length (SL.length * n))).length <
                  ddMeasure config.length slices.length := by
                refine ddMeasure_slices_lt ?_ ?_
                · rw [hNlen]
                  omega
                · rw [hNlen]
                  exact hKle
              omega
            rw [ddminGo_succ_escalate hSL horacle hlen hr hesc]
            exact ih config (splitBalanced config.length (min config.length (SL.length * n)))
              (off1 * ((splitBalanced config.length
                (min config.length (SL.length * n))).length : ℚ) / (SL.length : ℚ))
              ⟨st1.cache, st1.trace ++ [Event.escalate off1 SL.length
                (splitBalanced config.length (min config.length (SL.length * n))).length
                config.length
                (off1 * ((splitBalanced config.length
                  (min config.length (SL.length * n))).length : ℚ) / (SL.length : ℚ))]⟩
              (run + 1) hfuel' (Or.inl hchainN) hoff2n
              (inv_append_escalate hInv1 rfl (by rw [hNlen]; exact hKgt)
                (by rw [hNlen]; exact hKle))
          · have hfin : SL.length = config.length :=
              le_antisymm hSLle (le_of_not_lt hesc)
            rw [ddminGo_succ_finest hSL horacle hlen hr hesc]
            refine ⟨fun h => DDRes.noConfusion h, hInv1, fun _ => ⟨config, rfl⟩, ?_⟩
            intro C2 h
            have h2 : DDRes.done (α := α) config = DDRes.done C2 := h
            injection h2 with h3
            subst h3
            refine ⟨List.Sublist.refl _, horacle, ?_⟩
            intro h2len k hk
            have hunits : SL.map (sliceList config) = config.map (fun x => [x]) := by
              have := chain_units hSLchain (by omega)
              rwa [List.drop_zero] at this
            have hn0 : 0 < (SL.map (sliceList config)).length := by
              rw [hslen]
              omega
            have hkn : k < (SL.map (sliceList config)).length := by
              rw [hslen, hfin]
              exact hk
            obtain ⟨j, hjn, hjidx⟩ := complementIndex_surj hoff hn0 hkn
            have hjmem : some j ∈ forward (SL.map (sliceList config)).length :=
              mem_forward.mpr hjn
            have hres := hcomplall j hjmem
            rw [hjidx, hunits, complementOf_map_singleton] at hres
            cases hout : oracle (config.eraseIdx k) with
            | PASS => rfl
            | FAIL => exact absurd hout hres

end LoopSupport

/-! ## The cache is never written when the id prefix contains "assert" -/

section AssertPrefix

variable {α : Type} [DecidableEq α]

theorem testConfig_cache_of_assert_pre {pre : List String} (hpre : "assert" ∈ pre)
    (oracle : Oracle α) (st : DDState α) (config : List α) (cid : List String) :
    (testConfig oracle pre st config cid).2.cache = st.cache := by
  rw [testConfig_assert_eq (List.mem_append_left cid hpre)]

theorem probe_cache_of_assert_pre {pre : List String} (hpre : "assert" ∈ pre)
    (oracle : Oracle α) (st : DDState α) (config : List α) (cid : List String) :
    (probe oracle pre st config cid).2.cache = st.cache := by
  cases hlk : cacheLookup st.cache config with
  | some o => rw [probe_hit_eq hlk]
  | none => rw [probe_miss_assert_eq hlk (List.mem_append_left cid hpre)]

theorem reduceToSubsetGo_cache_of_assert_pre {pre : List String} (hpre : "assert" ∈ pre)
    (oracle : Oracle α) (run : Nat) (subsets : List (List α)) (off : ℚ) :
    ∀ (L : List (Option Nat)) (st : DDState α),
      (reduceToSubsetGo oracle pre run subsets off L st).2.cache = st.cache := by
  intro L
  induction L with
  | nil => intro st; rfl
  | cons hd rest ih =>
    intro st
    cases hd with
    | none => exact ih st
    | some i =>
      simp only [reduceToSubsetGo]
      by_cases hfail :
        (probe oracle pre st (subsets.getD i []) [runToken run, subsetToken i]).1 =
          Outcome.FAIL
      · rw [if_pos hfail]
        exact probe_cache_of_assert_pre hpre oracle st _ _
      · rw [if_neg hfail]
        rw [ih]
        exact probe_cache_of_assert_pre hpre oracle st _ _

theorem reduceToComplementGo_cache_of_assert_pre {pre : List String} (hpre : "assert" ∈ pre)
    (oracle : Oracle α) (run : Nat) (subsets : List (List α)) (off : ℚ) :
    ∀ (L : List (Option Nat)) (st : DDState α),
      (reduceToComplementGo oracle pre run subsets off L st).2.cache = st.cache := by
  intro L
  induction L with
  | nil => intro st; rfl
  | cons hd rest ih =>
    intro st
    cases hd with
    | none => exact ih st
    | some j =>
      simp only [reduceToComplementGo]
      by_cases hfail :
        (probe oracle pre st (complementOf subsets (complementIndex j off subsets.length))
          [runToken run, complToken (complementIndex j off subsets.length)]).1 =
            Outcome.FAIL
      · rw [if_pos hfail]
        exact probe_cache_of_assert_pre hpre oracle st _ _
      · rw [if_neg hfail]
        rw [ih]
        exact probe_cache_of_assert_pre hpre oracle st _ _

theorem reduceConfig_cache_of_assert_pre {pre : List String} (hpre : "assert" ∈ pre)
    (oracle : Oracle α) (sIt cIt : Nat → List (Option Nat)) (sf : Bool) (run : Nat)
    (subsets : List (List α)) (off : ℚ) (st : DDState α) :
    (reduceConfig oracle pre sIt cIt sf run subsets off st).2.cache = st.cache := by
  cases sf
  · rcases h1 : reduceToComplementGo oracle pre run subsets off (cIt subsets.length) st
      with ⟨⟨r1, off1⟩, st1⟩
    have hc1 : st1.cache = st.cache := by
      rw [← reduceToComplementGo_cache_of_assert_pre hpre oracle run subsets off
        (cIt subsets.length) st, h1]
    cases r1 with
    | some ns => rw [reduceConfig_false_some h1 sIt]; exact hc1
    | none =>
      rw [reduceConfig_false_none h1 sIt,
        reduceToSubsetGo_cache_of_assert_pre hpre oracle run subsets off1
          (sIt subsets.length) st1]
      exact hc1
  · rcases h1 : reduceToSubsetGo oracle pre run subsets off (sIt subsets.length) st
      with ⟨⟨r1, off1⟩, st1⟩
    have hc1 : st1.cache = st.cache := by
      rw [← reduceToSubsetGo_cache_of_assert_pre hpre oracle run subsets off
        (sIt subsets.length) st, h1]
    cases r1 with
    | some ns => rw [reduceConfig_true_some h1 cIt]; exact hc1
    | none =>
      rw [reduceConfig_true_none h1 cIt,
        reduceToComplementGo_cache_of_assert_pre hpre oracle run subsets off1
          (cIt subsets.length) st1]
      exact hc1

theorem ddminGo_cache_of_assert_pre {pre : List String} (hpre : "assert" ∈ pre)
    (oracle : Oracle α) (sIt cIt : Nat → List (Option Nat)) (sf : Bool) (n : Nat) :
    ∀ (fuel run : Nat) (config : List α) (slices : List Slice) (off : ℚ) (st : DDState α),
      (ddminGo oracle pre sIt cIt sf n fuel run config slices off st).2.cache = st.cache := by
  intro fuel
  induction fuel with
  | zero => intro run config slices off st; rfl
  | succ fuel ih =>
    intro run config slices off st
    have htcc : (testConfig oracle pre st config [runToken run, "assert"]).2.cache =
        st.cache := testConfig_cache_of_assert_pre hpre oracle st config _
    by_cases hcond : oracle config = Outcome.FAIL
    · by_cases hlen : config.length < 2
      · rw [ddminGo_succ_small hcond hlen]
        exact htcc
      · rcases hr : reduceConfig oracle pre sIt cIt sf run
            ((if slices.length < 2 then
              splitBalanced config.length (min config.length n) else slices).map
              (sliceList config)) off
            (testConfig oracle pre st config [runToken run, "assert"]).2
          with ⟨⟨r1, off1⟩, st1⟩
        have hc1 : st1.cache = st.cache := by
          rw [← htcc, ← reduceConfig_cache_of_assert_pre hpre oracle sIt cIt sf run
            ((if slices.length < 2 then
              splitBalanced config.length (min config.length n) else slices).map
              (sliceList config)) off
            (testConfig oracle pre st config [runToken run, "assert"]).2, hr]
        cases r1 with
        | some nss =>
          rw [ddminGo_succ_reduce rfl hcond hlen hr, ih]
          exact hc1
        | none =>
          by_cases hesc : (if slices.length < 2 then
              splitBalanced config.length (min config.length n) else slices).length <
              config.length
          · rw [ddminGo_succ_escalate rfl hcond hlen hr hesc, ih]
            exact hc1
          · rw [ddminGo_succ_finest rfl hcond hlen hr hesc]
            exact hc1
    · rw [ddminGo_succ_assertFailed hcond]
      exact htcc

end AssertPrefix

/-! ## Instantiating the master lemma at `ddmin` -/

section DDMin

variable {α : Type} [DecidableEq α]

theorem ddmin_def (oracle : Oracle α) (pre : List String) (sIt cIt : Nat → List (Option Nat))
    (sf : Bool) (cache0 : Cache α) (config : List α) (n : Nat) :
    ddmin oracle pre sIt cIt sf cache0 config n =
      ddminGo oracle pre sIt cIt sf n (ddFuel config) 0 config [] 0 ⟨cache0, []⟩ := rfl

theorem reduceToSubset_def (oracle : Oracle α) (pre : List String)
    (sIt : Nat → List (Option Nat)) (run : Nat) (subsets : List (List α)) (off : ℚ)
    (st : DDState α) :
    reduceToSubset oracle pre sIt run subsets off st =
      reduceToSubsetGo oracle pre run subsets off (sIt subsets.length) st := rfl

theorem reduceToComplement_def (oracle : Oracle α) (pre : List String)
    (cIt : Nat → List (Option Nat)) (run : Nat) (subsets : List (List α)) (off : ℚ)
    (st : DDState α) :
    reduceToComplement oracle pre cIt run subsets off st =
      reduceToComplementGo oracle pre run subsets off (cIt subsets.length) st := rfl

theorem ddMeasure_lt_ddFuel (config : List α) :
    ddMeasure config.length ([] : List Slice).length < ddFuel config := by
  simp only [ddMeasure, ddFuel, List.length_nil]
  omega

/-- The master lemma at `ddmin`'s entry state: split ratio at least two and a
sound caller-supplied cache. -/
theorem ddmin_master {oracle : Oracle α} {cache0 : Cache α} {pre : List String} {sf : Bool}
    {config : List α} {n : Nat} (hn : 2 ≤ n) (hs : CacheSound oracle cache0) :
    (ddmin oracle pre forward forward sf cache0 config n).1 ≠ DDRes.outOfFuel ∧
      Inv oracle cache0 pre (ddmin oracle pre forward forward sf cache0 config n).2 ∧
      (oracle config = Outcome.FAIL →
        ∃ C2, (ddmin oracle pre forward forward sf cache0 config n).1 = DDRes.done C2) ∧
      (∀ C2, (ddmin oracle pre forward forward sf cache0 config n).1 = DDRes.done C2 →
        List.Sublist C2 config ∧ oracle C2 = Outcome.FAIL ∧
        (2 ≤ C2.length → ∀ k, k < C2.length → oracle (C2.eraseIdx k) = Outcome.PASS)) :=
  ddminGo_master hn (ddFuel config) config [] 0 ⟨cache0, []⟩ 0 (ddMeasure_lt_ddFuel config)
    (Or.inr rfl) le_rfl (inv_init oracle cache0 pre hs)

/-! ## Concrete oracles for counterexamples and witnesses -/

/-- An oracle for which every configuration, the empty one included, is
interesting. -/
def failAll : Oracle Nat := fun _ => Outcome.FAIL

/-- An oracle interested exactly in configurations containing the unit 1. -/
def oracleMem1 : Oracle Nat := fun c => if 1 ∈ c then Outcome.FAIL else Outcome.PASS

/-- An oracle whose reduction trace goes through a complement reduction at
index 1 followed by a granularity escalation from 3 to 4 slices, producing
the fractional complement offset 4/3. -/
def oracle6 : Oracle Nat := fun c =>
  if c = [0, 1, 2, 3, 4, 5] ∨ c = [0, 3, 4, 5] then Outcome.FAIL else Outcome.PASS

end DDMin

/-! ## The claims -/

section Claims

variable {α : Type} [DecidableEq α]

/-- C1 (counterexample): as stated, 1-minimality fails for a singleton
result: with an oracle for which every configuration — the empty one
included — is interesting, `ddmin` on the one-unit configuration `[0]`
returns `[0]`, yet removing its only element yields the empty
configuration, on which the oracle returns FAIL, not PASS (the engine
returns as soon as fewer than two units remain and never probes the empty
configuration). -/
theorem ddmin_one_minimal_singleton_cex :
    (ddmin failAll [] forward forward true ([] : Cache Nat) [0] 2).1 = DDRes.done [0] ∧
      failAll (([0] : List Nat).eraseIdx 0) ≠ Outcome.PASS := by decide

/-- C1 (amended): for every deterministic oracle, sound initial cache,
split ratio at least 2 and initial configuration on which the oracle
returns FAIL, `ddmin` returns a configuration on which the oracle returns
FAIL and which, whenever it has at least two units, is 1-minimal: removing
any single unit yields a configuration on which the oracle returns PASS.
(The singleton case must be excepted — see the counterexample.) -/
theorem ddmin_one_minimal_amended (oracle : Oracle α) (pre : List String) (sf : Bool)
    (cache0 : Cache α) (config : List α) (n : Nat)
    (hn : 2 ≤ n) (hs : CacheSound oracle cache0) (hfail : oracle config = Outcome.FAIL) :
    ∃ C2, (ddmin oracle pre forward forward sf cache0 config n).1 = DDRes.done C2 ∧
      oracle C2 = Outcome.FAIL ∧
      (2 ≤ C2.length → ∀ k, k < C2.length → oracle (C2.eraseIdx k) = Outcome.PASS) := by
  obtain ⟨-, -, R0, R3⟩ := ddmin_master hn hs
  obtain ⟨C2, hC2⟩ := R0 hfail
  obtain ⟨-, h2, h3⟩ := R3 C2 hC2
  exact ⟨C2, hC2, h2, h3⟩

/-- C1 (witness): the amended theorem at the oracle interested in the unit
1 and initial configuration `[0, 1]`. -/
theorem ddmin_one_minimal_amended_witness :
    ∃ C2, (ddmin oracleMem1 [] forward forward true ([] : Cache Nat) [0, 1] 2).1 =
        DDRes.done C2 ∧ oracleMem1 C2 = Outcome.FAIL ∧
      (2 ≤ C2.length → ∀ k, k < C2.length → oracleMem1 (C2.eraseIdx k) = Outcome.PASS) :=
  ddmin_one_minimal_amended oracleMem1 [] true [] [0, 1] 2 (by decide)
    (cacheSound_nil oracleMem1) (by decide)

/-- C2: the reduce step (as the spec intends it and as the bridged
embedding realises it) runs the subset and complement sub-phases in the
order given by `subset_first`; the first sub-phase that finds an
interesting candidate supplies the whole result, and if neither does the
step returns `(None, complement_offset)` with the offset unchanged — in
that case every subset and every complement tested PASS.  (The engine's
call itself passes four values while `LightDD._reduce_config` accepts
three; see the representation note at the top of the file.) -/
theorem reduce_step_order_spec (oracle : Oracle α) (pre : List String) (run : Nat)
    (subsets : List (List α)) (off : ℚ) (cache : Cache α)
    (hs : CacheSound oracle cache) (hoff : 0 ≤ off) :
    (∀ ns off1 st1,
      reduceToSubset oracle pre forward run subsets off ⟨cache, []⟩ = ((some ns, off1), st1) →
      reduceConfig oracle pre forward forward true run subsets off ⟨cache, []⟩ =
        ((some ns, off1), st1)) ∧
    (∀ ns off1 st1,
      reduceToComplement oracle pre forward run subsets off ⟨cache, []⟩ =
          ((some ns, off1), st1) →
      reduceConfig oracle pre forward forward false run subsets off ⟨cache, []⟩ =
        ((some ns, off1), st1)) ∧
    (∀ sf off2 st2,
      reduceConfig oracle pre forward forward sf run subsets off ⟨cache, []⟩ =
          ((none, off2), st2) →
      off2 = off ∧
      (∀ i, i < subsets.length → oracle (subsets.getD i []) ≠ Outcome.FAIL) ∧
      (∀ i, i < subsets.length → oracle (complementOf subsets i) ≠ Outcome.FAIL)) := by
  have hInv0 : Inv oracle cache pre ⟨cache, []⟩ := inv_init oracle cache pre hs
  refine ⟨?_, ?_, ?_⟩
  · intro ns off1 st1 h
    rw [reduceToSubset_def] at h
    exact reduceConfig_true_some h forward
  · intro ns off1 st1 h
    rw [reduceToComplement_def] at h
    exact reduceConfig_false_some h forward
  · intro sf off2 st2 h
    obtain ⟨hoff2, hsub, hcompl⟩ := reduceConfig_none hInv0 h
    refine ⟨hoff2, ?_, ?_⟩
    · intro i hi
      exact hsub i (mem_forward.mpr hi)
    · intro i hi
      have hn0 : 0 < subsets.length := by omega
      obtain ⟨j, hj, hjidx⟩ := complementIndex_surj hoff hn0 hi
      have hres := hcompl j (mem_forward.mpr hj)
      rwa [hjidx] at hres

/-- C2 (witness): the reduce-step characterization at a concrete state. -/
theorem reduce_step_order_spec_witness :
    (∀ ns off1 st1,
      reduceToSubset oracleMem1 [] forward 0 [[0], [1]] 0 ⟨[], []⟩ = ((some ns, off1), st1) →
      reduceConfig oracleMem1 [] forward forward true 0 [[0], [1]] 0 ⟨[], []⟩ =
        ((some ns, off1), st1)) ∧
    (∀ ns off1 st1,
      reduceToComplement oracleMem1 [] forward 0 [[0], [1]] 0 ⟨[], []⟩ =
          ((some ns, off1), st1) →
      reduceConfig oracleMem1 [] forward forward false 0 [[0], [1]] 0 ⟨[], []⟩ =
        ((some ns, off1), st1)) ∧
    (∀ sf off2 st2,
      reduceConfig oracleMem1 [] forward forward sf 0 [[0], [1]] 0 ⟨[], []⟩ =
          ((none, off2), st2) →
      off2 = 0 ∧
      (∀ i, i < ([[0], [1]] : List (List Nat)).length →
        oracleMem1 (([[0], [1]] : List (List Nat)).getD i []) ≠ Outcome.FAIL) ∧
      (∀ i, i < ([[0], [1]] : List (List Nat)).length →
        oracleMem1 (complementOf [[0], [1]] i) ≠ Outcome.FAIL)) :=
  reduce_step_order_spec oracleMem1 [] 0 [[0], [1]] 0 [] (cacheSound_nil oracleMem1) le_rfl

set_option maxRecDepth 4000 in
/-- C3 (counterexample): granularity escalation stores the exact
true-division quotient, not its floor, and the stored offset need not be
an integer: on the `oracle6` run, the escalation from 3 to 4 slices with
old offset 1 records the new offset 4/3, which differs from
`floor(1 * 4 / 3) = 1`. -/
theorem ddmin_escalation_fractional_cex :
    Event.escalate 1 3 4 4 (4 / 3) ∈
      (ddmin oracle6 [] forward forward true ([] : Cache Nat) [0, 1, 2, 3, 4, 5] 2).2.trace ∧
      (4 / 3 : ℚ) ≠ ((⌊(1 : ℚ) * 4 / 3⌋ : ℤ) : ℚ) := by
  with_unfolding_all decide

/-- C3 (amended): when a non-reducing iteration increases granularity, the
new complement offset equals the old offset multiplied by the new slice
count and divided by the previous slice count in exact (true) rational
division — no floor is taken, and the stored offset need not be an
integer. -/
theorem ddmin_escalation_true_division (oracle : Oracle α) (pre : List String) (sf : Bool)
    (cache0 : Cache α) (config : List α) (n : Nat)
    (hn : 2 ≤ n) (hs : CacheSound oracle cache0) :
    ∀ old p q len new,
      Event.escalate old p q len new ∈
        (ddmin oracle pre forward forward sf cache0 config n).2.trace →
      new = old * (q : ℚ) / (p : ℚ) := by
  obtain ⟨-, R2, -, -⟩ := ddmin_master hn hs
  intro old p q len new h
  exact (R2.escOK old p q len new h).1

set_option maxRecDepth 4000 in
/-- C3 (witness): the amended theorem at the concrete escalation event of
the `oracle6` run: the offset 4/3 stored there is the exact quotient
1 * 4 / 3. -/
theorem ddmin_escalation_true_division_witness :
    (4 / 3 : ℚ) = 1 * ((4 : ℕ) : ℚ) / ((3 : ℕ) : ℚ) :=
  ddmin_escalation_true_division oracle6 [] true [] [0, 1, 2, 3, 4, 5] 2 (by decide)
    (cacheSound_nil oracle6) 1 3 4 4 (4 / 3) (by with_unfolding_all decide)

/-- C4: `ddmin` terminates: with split ratio at least 2 and a sound cache
the explicit fuel `ddFuel` is never exhausted, every successful reduction
strictly decreases the configuration length, and every granularity
escalation strictly increases the slice count while keeping it at most the
configuration length. -/
theorem ddmin_terminates (oracle : Oracle α) (pre : List String) (sf : Bool)
    (cache0 : Cache α) (config : List α) (n : Nat)
    (hn : 2 ≤ n) (hs : CacheSound oracle cache0) :
    (ddmin oracle pre forward forward sf cache0 config n).1 ≠ DDRes.outOfFuel ∧
    (∀ a b, Event.reduced a b ∈
      (ddmin oracle pre forward forward sf cache0 config n).2.trace → b < a) ∧
    (∀ old p q len new, Event.escalate old p q len new ∈
      (ddmin oracle pre forward forward sf cache0 config n).2.trace →
      p < q ∧ q ≤ len) := by
  obtain ⟨R1, R2, -, -⟩ := ddmin_master hn hs
  exact ⟨R1, R2.redOK, fun old p q len new h => (R2.escOK old p q len new h).2⟩

/-- C4 (witness): termination on a concrete run. -/
theorem ddmin_terminates_witness :
    (ddmin oracleMem1 [] forward forward true ([] : Cache Nat) [0, 1] 2).1 ≠
      DDRes.outOfFuel ∧
    (∀ a b, Event.reduced a b ∈
      (ddmin oracleMem1 [] forward forward true ([] : Cache Nat) [0, 1] 2).2.trace →
      b < a) ∧
    (∀ old p q len new, Event.escalate old p q len new ∈
      (ddmin oracleMem1 [] forward forward true ([] : Cache Nat) [0, 1] 2).2.trace →
      p < q ∧ q ≤ len) :=
  ddmin_terminates oracleMem1 [] true [] [0, 1] 2 (by decide) (cacheSound_nil oracleMem1)

/-- C5: with a sound initial cache, every probe outcome the engine obtains
during `ddmin` (recorded as a `probed` event) equals the oracle's verdict
for that configuration, and no configuration is submitted to the oracle
more than once outside the assertion tests: the configurations of the
non-assert oracle calls form a duplicate-free list. -/
theorem ddmin_probe_cache_soundness (oracle : Oracle α) (pre : List String) (sf : Bool)
    (cache0 : Cache α) (config : List α) (n : Nat)
    (hn : 2 ≤ n) (hs : CacheSound oracle cache0) :
    (∀ c id o, Event.probed c id o ∈
        (ddmin oracle pre forward forward sf cache0 config n).2.trace →
      "assert" ∉ id → o = oracle c) ∧
    (nonAssertCallConfigs
      (ddmin oracle pre forward forward sf cache0 config n).2.trace).Nodup := by
  obtain ⟨-, R2, -, -⟩ := ddmin_master hn hs
  exact ⟨fun c id o h _ => R2.probedSound c id o h, R2.nodup⟩

/-- C5 (witness): cache soundness on a concrete run. -/
theorem ddmin_probe_cache_soundness_witness :
    (∀ c id o, Event.probed c id o ∈
        (ddmin oracleMem1 [] forward forward true ([] : Cache Nat) [0, 1] 2).2.trace →
      "assert" ∉ id → o = oracleMem1 c) ∧
    (nonAssertCallConfigs
      (ddmin oracleMem1 [] forward forward true ([] : Cache Nat) [0, 1] 2).2.trace).Nodup :=
  ddmin_probe_cache_soundness oracleMem1 [] true [] [0, 1] 2 (by decide)
    (cacheSound_nil oracleMem1)

/-- C6 (counterexample): the cache IS consulted for a test whose full
config id tokens include `"assert"` when the caller-supplied id prefix
contains `"assert"`: membership is tested on the full prefixed id
(abstract_dd.py line 141), but the lookup of light_dd.py line 87 happens
regardless of the id, so with prefix `("assert",)` the first subset probe
consults the cache under the id `("assert", "r0", "s0")`. -/
theorem ddmin_cache_discipline_cex :
    Event.lookup [0] ["assert", "r0", "s0"] ∈
      (ddmin failAll ["assert"] forward forward true ([] : Cache Nat) [0, 1] 2).2.trace ∧
      "assert" ∈ (["assert", "r0", "s0"] : List String) := by decide

/-- C6 (amended): provided the caller-supplied id prefix does not contain
`"assert"`: every oracle call whose full config id does not contain
`"assert"` is written through to the cache (its configuration maps to its
outcome in the final cache); every cache entry stems from the initial
cache or from a non-assert oracle call (so the pre-iteration assertion
tests are never memoized); and no cache consultation ever carries an id
containing `"assert"` (the assertion tests bypass the lookup). -/
theorem ddmin_cache_discipline (oracle : Oracle α) (pre : List String) (sf : Bool)
    (cache0 : Cache α) (config : List α) (n : Nat)
    (hn : 2 ≤ n) (hs : CacheSound oracle cache0) (hpre : "assert" ∉ pre) :
    (∀ c id o, Event.call c id o ∈
        (ddmin oracle pre forward forward sf cache0 config n).2.trace →
      "assert" ∉ id →
      cacheLookup (ddmin oracle pre forward forward sf cache0 config n).2.cache c = some o) ∧
    (∀ c, cacheLookup (ddmin oracle pre forward forward sf cache0 config n).2.cache c ≠
        none →
      cacheLookup cache0 c ≠ none ∨
      c ∈ nonAssertCallConfigs
        (ddmin oracle pre forward forward sf cache0 config n).2.trace) ∧
    (∀ c id, Event.lookup c id ∈
        (ddmin oracle pre forward forward sf cache0 config n).2.trace →
      "assert" ∉ id) := by
  obtain ⟨-, R2, -, -⟩ := ddmin_master hn hs
  exact ⟨R2.callCached, R2.fromCalls, R2.lookupNoAssert hpre⟩

/-- C6 (witness): the cache discipline on a concrete run with an empty
prefix. -/
theorem ddmin_cache_discipline_witness :
    (∀ c id o, Event.call c id o ∈
        (ddmin oracleMem1 [] forward forward true ([] : Cache Nat) [0, 1] 2).2.trace →
      "assert" ∉ id →
      cacheLookup (ddmin oracleMem1 [] forward forward true ([] : Cache Nat) [0, 1] 2).2.cache
        c = some o) ∧
    (∀ c, cacheLookup
        (ddmin oracleMem1 [] forward forward true ([] : Cache Nat) [0, 1] 2).2.cache c ≠
        none →
      cacheLookup ([] : Cache Nat) c ≠ none ∨
      c ∈ nonAssertCallConfigs
        (ddmin oracleMem1 [] forward forward true ([] : Cache Nat) [0, 1] 2).2.trace) ∧
    (∀ c id, Event.lookup c id ∈
        (ddmin oracleMem1 [] forward forward true ([] : Cache Nat) [0, 1] 2).2.trace →
      "assert" ∉ id) :=
  ddmin_cache_discipline oracleMem1 [] true [] [0, 1] 2 (by decide)
    (cacheSound_nil oracleMem1) (by decide)

/-- C7: in complement-reduce with the forward iterator, each raw iterator
index j is mapped to `int((j + offset) mod n)`, which for a non-negative
offset equals `(j + floor(offset)) mod n`; when the complement of slice i
tests FAIL the sub-phase returns the subset list with the i-th entry
removed (order preserved, as `subsets[:i] ++ subsets[i+1:]`) together with
the new offset i; when no complement tests FAIL it returns the offset
unchanged. -/
theorem reduce_to_complement_spec (oracle : Oracle α) (pre : List String) (run : Nat)
    (subsets : List (List α)) (off : ℚ) (cache : Cache α)
    (hs : CacheSound oracle cache) (hoff : 0 ≤ off) (hn : 0 < subsets.length) :
    (∀ j, complementIndex j off subsets.length =
      (j + Int.toNat ⌊off⌋) % subsets.length) ∧
    (∀ nss off2 st2,
      reduceToComplement oracle pre forward run subsets off ⟨cache, []⟩ =
          ((some nss, off2), st2) →
      ∃ i, i < subsets.length ∧ oracle (complementOf subsets i) = Outcome.FAIL ∧
        nss = subsets.take i ++ subsets.drop (i + 1) ∧ off2 = (i : ℚ)) ∧
    (∀ off2 st2,
      reduceToComplement oracle pre forward run subsets off ⟨cache, []⟩ =
          ((none, off2), st2) →
      off2 = off) := by
  have hInv0 : Inv oracle cache pre ⟨cache, []⟩ := inv_init oracle cache pre hs
  refine ⟨?_, ?_, ?_⟩
  · intro j
    exact complementIndex_eq j hoff hn
  · intro nss off2 st2 h
    rw [reduceToComplement_def] at h
    obtain ⟨j, -, hfail, hnss, hoff2⟩ := reduceToComplementGo_some hInv0 h
    exact ⟨complementIndex j off subsets.length, complementIndex_lt j hoff hn,
      hfail, hnss, hoff2⟩
  · intro off2 st2 h
    rw [reduceToComplement_def] at h
    exact (reduceToComplementGo_none hInv0 h).1

/-- C7 (witness): the complement sub-phase characterization at a concrete
state. -/
theorem reduce_to_complement_spec_witness :
    (∀ j, complementIndex j 0 ([[0], [1]] : List (List Nat)).length =
      (j + Int.toNat ⌊(0 : ℚ)⌋) % ([[0], [1]] : List (List Nat)).length) ∧
    (∀ nss off2 st2,
      reduceToComplement oracleMem1 [] forward 0 [[0], [1]] 0 ⟨[], []⟩ =
          ((some nss, off2), st2) →
      ∃ i, i < ([[0], [1]] : List (List Nat)).length ∧
        oracleMem1 (complementOf [[0], [1]] i) = Outcome.FAIL ∧
        nss = ([[0], [1]] : List (List Nat)).take i ++
          ([[0], [1]] : List (List Nat)).drop (i + 1) ∧ off2 = (i : ℚ)) ∧
    (∀ off2 st2,
      reduceToComplement oracleMem1 [] forward 0 [[0], [1]] 0 ⟨[], []⟩ =
          ((none, off2), st2) →
      off2 = 0) :=
  reduce_to_complement_spec oracleMem1 [] 0 [[0], [1]] 0 [] (cacheSound_nil oracleMem1)
    le_rfl (by decide)

/-- C8: the configuration `ddmin` returns is a subsequence of the initial
configuration: surviving units occur in the initial configuration in the
same relative order. -/
theorem ddmin_result_subsequence (oracle : Oracle α) (pre : List String) (sf : Bool)
    (cache0 : Cache α) (config : List α) (n : Nat) (C2 : List α)
    (hn : 2 ≤ n) (hs : CacheSound oracle cache0)
    (h : (ddmin oracle pre forward forward sf cache0 config n).1 = DDRes.done C2) :
    List.Sublist C2 config := by
  obtain ⟨-, -, -, R3⟩ := ddmin_master hn hs
  exact (R3 C2 h).1

/-- C8 (witness): the result `[1]` of the run on `[0, 1]` is a subsequence
of `[0, 1]`. -/
theorem ddmin_result_subsequence_witness : List.Sublist [1] [0, 1] :=
  ddmin_result_subsequence oracleMem1 [] true [] [0, 1] 2 [1] (by decide)
    (cacheSound_nil oracleMem1) (by decide)

/-- C9: the complement index `int((j + complement_offset) mod n)` is a
natural number strictly below `n = |subsets|` whenever the offset is
non-negative — also for the fractional offsets produced by
granularity-escalation rescaling — so the slice selection and the
complement construction stay in bounds: the complement is exactly the
flattening of the subset list with the i-th entry removed. -/
theorem complement_index_in_bounds (subsets : List (List α)) (j : Nat) {off : ℚ}
    (hoff : 0 ≤ off) (hn : 0 < subsets.length) :
    complementIndex j off subsets.length < subsets.length ∧
    complementOf subsets (complementIndex j off subsets.length) =
      (subsets.take (complementIndex j off subsets.length) ++
        subsets.drop (complementIndex j off subsets.length + 1)).flatten :=
  ⟨complementIndex_lt j hoff hn, complementOf_eq _ _⟩

/-- C9 (witness): in-bounds complement indexing at the fractional offset
4/3 with four subsets. -/
theorem complement_index_in_bounds_witness :
    complementIndex 2 (4 / 3) ([[0], [1], [2], [3]] : List (List Nat)).length <
      ([[0], [1], [2], [3]] : List (List Nat)).length ∧
    complementOf ([[0], [1], [2], [3]] : List (List Nat))
        (complementIndex 2 (4 / 3) ([[0], [1], [2], [3]] : List (List Nat)).length) =
      (([[0], [1], [2], [3]] : List (List Nat)).take
          (complementIndex 2 (4 / 3) ([[0], [1], [2], [3]] : List (List Nat)).length) ++
        ([[0], [1], [2], [3]] : List (List Nat)).drop
          (complementIndex 2 (4 / 3) ([[0], [1], [2], [3]] : List (List Nat)).length +
            1)).flatten :=
  complement_index_in_bounds [[0], [1], [2], [3]] 2 (by norm_num) (by decide)

/-- C10: when the caller-supplied id prefix contains the token `"assert"`,
every full config id contains `"assert"` — the membership test of
abstract_dd.py line 141 is applied to the full prefixed id — so no oracle
outcome is ever added to the cache during the entire `ddmin` invocation:
the final cache is the initial cache. -/
theorem ddmin_assert_prefix_no_write (oracle : Oracle α) (pre : List String)
    (sIt cIt : Nat → List (Option Nat)) (sf : Bool) (cache0 : Cache α) (config : List α)
    (n : Nat) (hpre : "assert" ∈ pre) :
    (ddmin oracle pre sIt cIt sf cache0 config n).2.cache = cache0 := by
  rw [ddmin_def]
  exact ddminGo_cache_of_assert_pre hpre oracle sIt cIt sf n (ddFuel config) 0 config [] 0
    ⟨cache0, []⟩

/-- C10 (witness): with the prefix `("assert",)` the cache stays empty on
a concrete run. -/
theorem ddmin_assert_prefix_no_write_witness :
    (ddmin failAll ["assert"] forward forward true ([] : Cache Nat) [0, 1] 2).2.cache =
      ([] : Cache Nat) :=
  ddmin_assert_prefix_no_write failAll ["assert"] forward forward true [] [0, 1] 2
    (by decide)

end Claims

end Picire
